import Mathlib

/-
Verification development for the CLR(1) parser-construction core
(src/lib/clr-parser.ts and the near-duplicate copy src/unnamed/part_001).

The TypeScript source is shallowly embedded: JS strings become Lean
`String`, JS arrays become `List`, JS `Set` (insertion ordered) becomes a
`List` with append-if-absent insertion, JS objects used as string-keyed
records become association lists, thrown exceptions become `Except`, and
the unbounded `while` loops of the source become fuel-indexed recursions
returning `Option` (`none` = the JS loop has not finished within the given
fuel; a JS computation that diverges is `none` for every fuel).
-/

namespace CLR

/-! ## JS string primitives -/

/-- The characters matched by the regex class `\s` that can occur in the
inputs considered here (JS additionally treats some exotic Unicode spaces
as `\s`; none of them occur in grammar texts made of ASCII). -/
def jsWsB (c : Char) : Bool :=
  c == ' ' || c == '\t' || c == '\n' || c == '\r' || c == '\x0B' || c == '\x0C'

/-- The regex class `[A-Z]`. -/
def isUpperAZ (c : Char) : Bool :=
  decide ('A' ≤ c) && decide (c ≤ 'Z')

/-- The regex class `[a-z0-9]`. -/
def isLowerDigit (c : Char) : Bool :=
  (decide ('a' ≤ c) && decide (c ≤ 'z')) || (decide ('0' ≤ c) && decide (c ≤ '9'))

/-- The regex class `[A-Za-z0-9]`. -/
def isAlnumB (c : Char) : Bool :=
  isUpperAZ c || isLowerDigit c || (decide ('a' ≤ c) && decide (c ≤ 'z'))

/-- Drop `\s` characters from the end of a character list. -/
def dropTrailWs (l : List Char) : List Char :=
  ((l.reverse).dropWhile jsWsB).reverse

/-- JS `String.prototype.trim()`. -/
def jsTrim (s : String) : String :=
  ⟨dropTrailWs (s.data.dropWhile jsWsB)⟩

/-- Helper for `splitNl`: accumulates the current segment in reverse. -/
def splitNlAux : List Char → List Char → List String
  | [], acc => [⟨acc.reverse⟩]
  | c :: rest, acc =>
    if c = '\n' then ⟨acc.reverse⟩ :: splitNlAux rest [] else splitNlAux rest (c :: acc)

/-- JS `s.split("\n")`.  Always returns at least one element; in
particular `"".split("\n")` is `[""]`. -/
def splitNl (s : String) : List String :=
  splitNlAux s.data []

/-- Helper for whitespace-run tokenisation: accumulates the current word
in reverse.  Leading whitespace produces no empty word, matching
`trimmed.split(/\s+/)` on a trimmed input. -/
def wordsAux : List Char → List Char → List (List Char)
  | [], acc => if acc = [] then [] else [acc.reverse]
  | c :: rest, acc =>
    if jsWsB c then
      (if acc = [] then wordsAux rest [] else acc.reverse :: wordsAux rest [])
    else wordsAux rest (c :: acc)

/-- JS `t.split(/\s+/)` for a trimmed, non-empty `t` (the only way the
source applies it inside `parseGrammar`). -/
def wordsOfStr (t : String) : List String :=
  (wordsAux t.data []).map (fun l => (⟨l⟩ : String))

/-- JS `a.startsWith(p)`. -/
def jsStartsWith (a p : String) : Bool :=
  p.data.isPrefixOf a.data

/-- JS `s.substring(1)`. -/
def jsSubstring1 (s : String) : String :=
  ⟨s.data.drop 1⟩

/-- Digit-prefix part of JS `parseInt` (the source only applies it to the
decimal suffixes of `s…`/`r…` action strings and to goto values).
`none` models the `NaN` result on a string with no leading digit. -/
def jsParseIntNat (s : String) : Option Nat :=
  match s.data.takeWhile (fun c => decide ('0' ≤ c) && decide (c ≤ '9')) with
  | [] => none
  | ds => some (ds.foldl (fun n c => n * 10 + (c.toNat - '0'.toNat)) 0)

/-- JS `Set` insertion: append if absent, preserving insertion order
(`Array.from(set)` later reads the set back in that order). -/
def setAdd (l : List String) (s : String) : List String :=
  if s ∈ l then l else l ++ [s]

/-! ## Data model (from the `interface` declarations of the source) -/

structure Production where
  lhs : String
  rhs : List String
  id : Nat
deriving Repr, DecidableEq

structure Grammar where
  productions : List Production
  terminals : List String
  nonTerminals : List String
  startSymbol : String
deriving Repr, DecidableEq

structure Item where
  production : Production
  dotPosition : Nat
  lookahead : List String
deriving Repr, DecidableEq

structure State where
  id : Nat
  items : List Item
  kernel : List Item := []
deriving Repr, DecidableEq

/-! ## parseGrammar (two copies: src/lib/clr-parser.ts and src/unnamed/part_001) -/

/-- The regex test `/^[a-z0-9]+$/.test(symbol)`. -/
def isTerminalTok (s : String) : Bool :=
  !s.data.isEmpty && s.data.all isLowerDigit

/-- The regex test `/^[A-Z][A-Za-z0-9]*$/.test(symbol)`. -/
def isNonTerminalTok (s : String) : Bool :=
  match s.data with
  | [] => false
  | c :: r => isUpperAZ c && r.all isAlnumB

/-- The match of `/^\s*([A-Z][A-Za-z0-9]*)\s*->\s*(.+)\s*$/` against a
line.  Returns the two capture groups on success.  The match succeeds iff
after optional whitespace there is an `[A-Z][A-Za-z0-9]*` identifier, then
optional whitespace, then `->`, then a non-empty remainder.  The regex's
second group strips part of the leading whitespace of that remainder, but
the source only ever uses `rhsStr.trim()`, which coincides with the trim
of the raw remainder; we therefore return the raw remainder. -/
def matchProd (line : String) : Option (String × String) :=
  match line.data.dropWhile jsWsB with
  | [] => none
  | c :: rest =>
    if isUpperAZ c then
      let lhsChars := c :: rest.takeWhile isAlnumB
      match (rest.dropWhile isAlnumB).dropWhile jsWsB with
      | '-' :: '>' :: l3 =>
        if l3.isEmpty then none else some (⟨lhsChars⟩, ⟨l3⟩)
      | _ => none
    else none

/-- The symbol-classification loop shared verbatim by both copies:
`ε` is skipped, `[a-z0-9]+` goes to the terminal set, `[A-Z][A-Za-z0-9]*`
to the nonterminal set, anything else non-empty throws. -/
def classifySymbols : List String → List String → List String →
    Except String (List String × List String)
  | [], ts, ns => .ok (ts, ns)
  | sym :: rest, ts, ns =>
    if sym = "ε" then classifySymbols rest ts ns
    else if isTerminalTok sym then classifySymbols rest (setAdd ts sym) ns
    else if isNonTerminalTok sym then classifySymbols rest ts (setAdd ns sym)
    else if sym ≠ "" then .error ("Invalid symbol in production: " ++ sym)
    else classifySymbols rest ts ns

/-- Per-line loop of `parseGrammar` in src/lib/clr-parser.ts.
`i` is the 0-based line index (production ids are `i + 1`). -/
def parseLoopLib : List String → Nat → List Production → List String → List String →
    Except String (List Production × List String × List String)
  | [], _, ps, ts, ns => .ok (ps, ts, ns)
  | line :: rest, i, ps, ts, ns =>
    match matchProd line with
    | none => .error ("Invalid production format: " ++ line)
    | some (lhs, rhsRaw) =>
      let ns1 := setAdd ns lhs
      let t := jsTrim rhsRaw
      let rhs := if t = "ε" ∨ t = "" then ["ε"] else wordsOfStr t
      match classifySymbols rhs ts ns1 with
      | .error e => .error e
      | .ok (ts2, ns2) =>
        -- Source: `rhs === ["ε"] ? [] : rhs`.  JS `===` on arrays compares
        -- object references; a fresh literal is never reference-equal, so
        -- the condition is always false and `rhs` is pushed unchanged.
        parseLoopLib rest (i + 1) (ps ++ [⟨lhs, rhs, i + 1⟩]) ts2 ns2

/-- Per-line loop of `parseGrammar` in src/unnamed/part_001: identical to
`parseLoopLib` except for the value-level epsilon test
`rhs.length === 1 && rhs[0] === "ε"` on the pushed rhs. -/
def parseLoopWeb : List String → Nat → List Production → List String → List String →
    Except String (List Production × List String × List String)
  | [], _, ps, ts, ns => .ok (ps, ts, ns)
  | line :: rest, i, ps, ts, ns =>
    match matchProd line with
    | none => .error ("Invalid production format: " ++ line)
    | some (lhs, rhsRaw) =>
      let ns1 := setAdd ns lhs
      let t := jsTrim rhsRaw
      let rhs := if t = "ε" ∨ t = "" then ["ε"] else wordsOfStr t
      match classifySymbols rhs ts ns1 with
      | .error e => .error e
      | .ok (ts2, ns2) =>
        parseLoopWeb rest (i + 1)
          (ps ++ [⟨lhs, if rhs = ["ε"] then [] else rhs, i + 1⟩]) ts2 ns2

/-- Final assembly shared by both copies: add `$` to the terminals, read
the start symbol off the first production, prepend the augmented
production `S' -> S` (id 0) and add `S'` to the nonterminals.  The
`productions[0].lhs` read cannot fail because each processed line either
throws or pushes a production and the line list is never empty. -/
def assembleGrammar (ps : List Production) (ts ns : List String) :
    Except String Grammar :=
  let ts := setAdd ts "$"
  match ps.head? with
  | none => .error "TypeError: Cannot read properties of undefined"
  | some p0 =>
    let startSymbol := p0.lhs
    let aug := startSymbol ++ "'"
    .ok ⟨⟨aug, [startSymbol], 0⟩ :: ps, ts, setAdd ns aug, aug⟩

/-- `parseGrammar` of src/lib/clr-parser.ts.  Note that in JS
`String.prototype.split` always returns at least one element, so the
`lines.length === 0` emptiness check can never fire. -/
def parseGrammarLib (input : String) : Except String Grammar :=
  let lines := splitNl (jsTrim input)
  if lines.length = 0 then .error "Grammar cannot be empty"
  else
    match parseLoopLib lines 0 [] [] [] with
    | .error e => .error e
    | .ok (ps, ts, ns) => assembleGrammar ps ts ns

/-- `parseGrammar` of src/unnamed/part_001. -/
def parseGrammarWeb (input : String) : Except String Grammar :=
  let lines := splitNl (jsTrim input)
  if lines.length = 0 then .error "Grammar cannot be empty"
  else
    match parseLoopWeb lines 0 [] [] [] with
    | .error e => .error e
    | .ok (ps, ts, ns) => assembleGrammar ps ts ns

/-! ## Item equality and FIRST sets (identical in both source copies) -/

/-- JS `arr.join(sep)`. -/
def jsJoin (sep : String) : List String → String
  | [] => ""
  | [a] => a
  | a :: rest => a ++ sep ++ jsJoin sep rest

/-- `arraysEqual`: equal length and every element of the second array is a
member of (the `Set` built from) the first. -/
def arraysEqual (arr1 arr2 : List String) : Bool :=
  arr1.length == arr2.length && arr2.all (fun x => arr1.contains x)

/-- `itemsEqual`: compares lhs, the space-joined rhs, the dot position and
the lookahead arrays.  Production ids are not consulted. -/
def itemsEqual (item1 item2 : Item) : Bool :=
  item1.production.lhs == item2.production.lhs &&
  jsJoin " " item1.production.rhs == jsJoin " " item2.production.rhs &&
  item1.dotPosition == item2.dotPosition &&
  arraysEqual item1.lookahead item2.lookahead

/-- `computeFirst`, fuelled: the JS function recurses with no visited set,
so a FIRST-position cycle (for example `C -> C b`) makes it recurse
forever; `none` models a computation that has not returned within the
fuel.  The accumulating `Set<string>` is a `List` with insertion-ordered
`setAdd`, and the production loop is a monadic fold. -/
def computeFirstF : Nat → Grammar → List String → Option (List String)
  | 0, _, _ => none
  | fuel + 1, g, symbols =>
    match symbols with
    | [] => some ["ε"]
    | firstSymbol :: restSyms =>
      if g.terminals.contains firstSymbol then some [firstSymbol]
      else
        g.productions.foldlM (fun first production =>
          if production.lhs == firstSymbol then
            if production.rhs.isEmpty || production.rhs.head? == some "ε" then
              let first := setAdd first "ε"
              if restSyms.isEmpty then pure first
              else do
                let restFirst ← computeFirstF fuel g restSyms
                pure (restFirst.foldl setAdd first)
            else do
              let rhsFirst ← computeFirstF fuel g production.rhs
              let first := (rhsFirst.filter (fun s => s ≠ "ε")).foldl setAdd first
              if rhsFirst.contains "ε" && !restSyms.isEmpty then do
                let restFirst ← computeFirstF fuel g restSyms
                pure (restFirst.foldl setAdd first)
              else pure first
          else pure first) []

/-! ## closure and goto -/

/-- Inner loop of `closure`'s item addition: for one production with the
right lhs, add one item per lookahead of the FIRST set unless an
`itemsEqual` duplicate is already present. -/
def addItemsForLa (production : Production) : List String → List Item → Bool → List Item × Bool
  | [], result, changed => (result, changed)
  | la :: rest, result, changed =>
    let newItem : Item := ⟨production, 0, [la]⟩
    if result.any (fun it => itemsEqual it newItem) then
      addItemsForLa production rest result changed
    else
      addItemsForLa production rest (result ++ [newItem]) true

/-- The double loop `for production … for lookahead …` of `closure`. -/
def addClosureItems (prods : List Production) (sym : String) (firstSet : List String)
    (result : List Item) (changed : Bool) : List Item × Bool :=
  prods.foldl (fun rc p => if p.lhs == sym then addItemsForLa p firstSet rc.1 rc.2 else rc)
    (result, changed)

/-- One `for (let i = 0; i < result.length; i++)` pass of `closure`.  The
JS loop re-reads `result.length` each iteration, so items appended during
the pass are themselves processed in the same pass; `stepFuel` bounds the
number of index steps. -/
def closScan : Nat → Nat → Grammar → List Item → Nat → Bool → Option (List Item × Bool)
  | 0, _, _, _, _, _ => none
  | stepFuel + 1, cfFuel, g, result, i, changed =>
    if h : i < result.length then
      let item := result.get ⟨i, h⟩
      if item.dotPosition < item.production.rhs.length then
        let symbolAfterDot := item.production.rhs.getD item.dotPosition ""
        if g.nonTerminals.contains symbolAfterDot then
          let beta := item.production.rhs.drop (item.dotPosition + 1)
          match computeFirstF cfFuel g (beta ++ item.lookahead) with
          | none => none
          | some firstSet0 =>
            let firstSet := firstSet0.filter (fun s => s ≠ "ε")
            let rc := addClosureItems g.productions symbolAfterDot firstSet result changed
            closScan stepFuel cfFuel g rc.1 (i + 1) rc.2
        else closScan stepFuel cfFuel g result (i + 1) changed
      else closScan stepFuel cfFuel g result (i + 1) changed
    else some (result, changed)

/-- The `while (changed)` loop of `closure`: repeat full passes until a
pass adds nothing. -/
def closRun : Nat → Nat → Grammar → List Item → Option (List Item)
  | 0, _, _, _ => none
  | passFuel + 1, fuel, g, result =>
    match closScan fuel fuel g result 0 false with
    | none => none
    | some (result', changed) =>
      if changed then closRun passFuel fuel g result' else some result'

/-- `closure(grammar, items)`, fuelled. -/
def closureF (fuel : Nat) (g : Grammar) (items : List Item) : Option (List Item) :=
  closRun fuel fuel g items

/-- `goto(grammar, items, symbol)`: advance the dot over `symbol` in every
item whose next symbol is `symbol`, then close. -/
def gotoF (fuel : Nat) (g : Grammar) (items : List Item) (symbol : String) :
    Option (List Item) :=
  let advanced := items.filterMap (fun item =>
    if item.dotPosition < item.production.rhs.length ∧
        item.production.rhs.getD item.dotPosition "" = symbol then
      some ⟨item.production, item.dotPosition + 1, item.lookahead⟩
    else none)
  closureF fuel g advanced

/-! ## generateClrItems -/

/-- Lexicographic order on strings, as JS `Array.prototype.sort`'s default
comparator orders the (BMP) strings that occur in state signatures. -/
def charListLe : List Char → List Char → Bool
  | [], _ => true
  | _ :: _, [] => false
  | a :: as, b :: bs => if a < b then true else if b < a then false else charListLe as bs

def strLeB (a b : String) : Bool :=
  charListLe a.data b.data

def insertSorted (a : String) : List String → List String
  | [] => [a]
  | b :: rest => if strLeB a b then a :: b :: rest else b :: insertSorted a rest

/-- JS `strings.sort()` (all signature strings are distinct or identical,
so any comparison sort yields this order). -/
def sortStrs : List String → List String
  | [] => []
  | a :: rest => insertSorted a (sortStrs rest)

/-- JS `rhsCopy.splice(dotPosition, 0, "•")`. -/
def insertAt (l : List String) (n : Nat) (a : String) : List String :=
  l.take n ++ [a] ++ l.drop n

/-- One line of a state signature:
`lhs->rhs-with-dot-joined-by-spaces,lookaheads-joined-by-slash`. -/
def itemSig (item : Item) : String :=
  item.production.lhs ++ "->" ++
    jsJoin " " (insertAt item.production.rhs item.dotPosition "•") ++ "," ++
    jsJoin "/" item.lookahead

/-- `getStateSignature`: per-item strings, sorted, joined by `|`. -/
def getStateSignature (items : List Item) : String :=
  jsJoin "|" (sortStrs (items.map itemSig))

/-- The `Set` of symbols appearing immediately after a dot in some item of
the state, in first-encounter order. -/
def collectSymbols (items : List Item) : List String :=
  items.foldl (fun syms item =>
    if item.dotPosition < item.production.rhs.length then
      setAdd syms (item.production.rhs.getD item.dotPosition "")
    else syms) []

/-- The kernel filter applied to a freshly created state: items obtained
by advancing the dot over `symbol` in some item of the source state. -/
def kernelFilter (srcItems : List Item) (symbol : String) (gotoItems : List Item) :
    List Item :=
  gotoItems.filter (fun item =>
    srcItems.any (fun stateItem =>
      decide (stateItem.dotPosition < stateItem.production.rhs.length) &&
      stateItem.production.rhs.getD stateItem.dotPosition "" == symbol &&
      stateItem.production.lhs == item.production.lhs &&
      jsJoin " " stateItem.production.rhs == jsJoin " " item.production.rhs &&
      item.dotPosition == stateItem.dotPosition + 1))

/-- The `for (const symbol of symbols)` loop of `generateClrItems`:
computes GOTO for each symbol and registers unseen non-empty results as
new states keyed by their signature. -/
def processSymbols (fuel : Nat) (g : Grammar) (curItems : List Item) :
    List String → List State → List (String × Nat) →
    Option (List State × List (String × Nat))
  | [], states, stateMap => some (states, stateMap)
  | symbol :: restSyms, states, stateMap =>
    match gotoF fuel g curItems symbol with
    | none => none
    | some gotoItems =>
      if gotoItems.length > 0 then
        let signature := getStateSignature gotoItems
        if (stateMap.lookup signature).isSome then
          processSymbols fuel g curItems restSyms states stateMap
        else
          let newStateId := states.length
          processSymbols fuel g curItems restSyms
            (states ++ [⟨newStateId, gotoItems, kernelFilter curItems symbol gotoItems⟩])
            (stateMap ++ [(signature, newStateId)])
      else processSymbols fuel g curItems restSyms states stateMap

/-- The `while (i < states.length)` worklist loop of `generateClrItems`;
`outer` bounds the number of worklist steps. -/
def clrLoop : Nat → Nat → Grammar → List State → List (String × Nat) → Nat →
    Option (List State)
  | 0, _, _, _, _, _ => none
  | outer + 1, fuel, g, states, stateMap, i =>
    if h : i < states.length then
      let state := states.get ⟨i, h⟩
      match processSymbols fuel g state.items (collectSymbols state.items) states stateMap with
      | none => none
      | some (states', stateMap') => clrLoop outer fuel g states' stateMap' (i + 1)
    else some states

/-- `generateClrItems(grammar)`, fuelled.  The `grammar.productions[0]`
read is modelled as `none` when the production list is empty (unreachable
for grammars produced by `parseGrammar`, which always contain the
augmented production). -/
def generateClrItemsF (fuel : Nat) (g : Grammar) : Option (List State) :=
  match g.productions.head? with
  | none => none
  | some p0 =>
    let initialItem : Item := ⟨p0, 0, ["$"]⟩
    match closureF fuel g [initialItem] with
    | none => none
    | some initialClosure =>
      clrLoop fuel fuel g [⟨0, initialClosure, [initialItem]⟩]
        [(getStateSignature initialClosure, 0)] 0

/-! ## generateDfa -/

structure Node where
  id : Nat
  label : String
deriving Repr, DecidableEq

structure Edge where
  source : Nat
  target : Nat
  label : String
deriving Repr, DecidableEq

structure Dfa where
  nodes : List Node
  edges : List Edge
deriving Repr, DecidableEq

/-- A node label: the human-readable item list with the dot marker. -/
def stateLabel (state : State) : String :=
  jsJoin "\n" (state.items.map (fun item =>
    item.production.lhs ++ " -> " ++
      jsJoin " " (insertAt item.production.rhs item.dotPosition "•") ++ ", " ++
      jsJoin "/" item.lookahead))

/-- The inner `for (const targetState of states)` search of `generateDfa`:
the first state whose item set equals the GOTO result up to `itemsEqual`. -/
def findTarget (gotoItems : List Item) (states : List State) : Option Nat :=
  (states.find? (fun t =>
    gotoItems.length == t.items.length &&
    gotoItems.all (fun item => t.items.any (fun ti => itemsEqual item ti)))).map (·.id)

/-- Edges contributed by one state of `generateDfa`. -/
def dfaEdgesForState (fuel : Nat) (g : Grammar) (states : List State) (state : State) :
    Option (List Edge) :=
  (collectSymbols state.items).foldlM (fun acc symbol => do
    let gotoItems ← gotoF fuel g state.items symbol
    if gotoItems.length > 0 then
      match findTarget gotoItems states with
      | some tid => pure (acc ++ [⟨state.id, tid, symbol⟩])
      | none => pure acc
    else pure acc) []

/-- `generateDfa(states, grammar)`, fuelled (it recomputes GOTO, hence
closure, for every transition). -/
def generateDfaF (fuel : Nat) (states : List State) (g : Grammar) : Option Dfa := do
  let edges ← states.foldlM (fun acc st => do
    let es ← dfaEdgesForState fuel g states st
    pure (acc ++ es)) []
  pure ⟨states.map (fun s => ⟨s.id, stateLabel s⟩), edges⟩

/-! ## generateParsingTable -/

/-- The string-keyed `Record<string, string>` of the source, as an
association list with in-place overwrite (JS object keys keep their first
insertion position when reassigned). -/
def aset (m : List (String × String)) (k v : String) : List (String × String) :=
  match m with
  | [] => [(k, v)]
  | (k', v') :: rest => if k' == k then (k, v) :: rest else (k', v') :: aset rest k v

/-- `actions[id] = {}` — (re)initialise an outer key. -/
def osetInit (m : List (Nat × List (String × String))) (k : Nat) :
    List (Nat × List (String × String)) :=
  match m with
  | [] => [(k, [])]
  | (k', v') :: rest => if k' == k then (k, []) :: rest else (k', v') :: osetInit rest k

/-- `actions[outer][inner] = v`.  When `outer` is absent JS throws a
`TypeError`; that never happens in `generateParsingTable` because the
initialisation loop created a row for every state id, and every write is
keyed by a state id (for the edge loop this is the hypothesis that edge
sources are state ids).  The model leaves the map unchanged in that
unreachable case. -/
def osetUpd (m : List (Nat × List (String × String))) (k : Nat) (t v : String) :
    List (Nat × List (String × String)) :=
  match m with
  | [] => []
  | (k', inner) :: rest =>
    if k' == k then (k, aset inner t v) :: rest else (k', inner) :: osetUpd rest k t v

/-- `m[k]?.[t]` — two-level lookup. -/
def lookup2 (m : List (Nat × List (String × String))) (k : Nat) (t : String) :
    Option String :=
  (m.lookup k).bind (fun inner => inner.lookup t)

structure ParsingTable where
  actions : List (Nat × List (String × String))
  gotos : List (Nat × List (String × String))
  terminals : List String
  nonTerminals : List String
  states : List Nat
deriving Repr, DecidableEq

/-- Processing of one state's items in the reduce/accept phase. -/
def reduceAccState (startSymbol : String) (st : State)
    (a : List (Nat × List (String × String))) : List (Nat × List (String × String)) :=
  st.items.foldl (fun a item =>
    if item.dotPosition = item.production.rhs.length then
      if item.production.lhs == startSymbol && item.lookahead.contains "$" then
        osetUpd a st.id "$" "acc"
      else
        item.lookahead.foldl (fun a lookahead =>
          match lookup2 a st.id lookahead with
          | none => osetUpd a st.id lookahead ("r" ++ Nat.repr item.production.id)
          | some v =>
            if v = "" ∨ jsStartsWith v "s" = false then
              osetUpd a st.id lookahead ("r" ++ Nat.repr item.production.id)
            else a) a
    else a) a

/-- The `actions[state.id] = {}` / `gotos[state.id] = {}` loop. -/
def initRows (states : List State) : List (Nat × List (String × String)) :=
  states.foldl (fun a st => osetInit a st.id) []

/-- The `for (const edge of dfa.edges)` loop: shift cells for terminal
labels, goto cells for nonterminal labels. -/
def shiftGotoPhase (edges : List Edge) (g : Grammar)
    (ag : List (Nat × List (String × String)) × List (Nat × List (String × String))) :
    List (Nat × List (String × String)) × List (Nat × List (String × String)) :=
  edges.foldl
    (fun ag edge =>
      if g.terminals.contains edge.label then
        (osetUpd ag.1 edge.source edge.label ("s" ++ Nat.repr edge.target), ag.2)
      else if g.nonTerminals.contains edge.label then
        (ag.1, osetUpd ag.2 edge.source edge.label (Nat.repr edge.target))
      else ag)
    ag

/-- The reduce/accept loop over all states. -/
def reduceAccPhase (states : List State) (startSymbol : String)
    (a : List (Nat × List (String × String))) : List (Nat × List (String × String)) :=
  states.foldl (fun a st => reduceAccState startSymbol st a) a

/-- `generateParsingTable(states, dfa, grammar)`.  Loop-free, hence a pure
function: initialise rows, fill shift/goto cells from the DFA edges, then
fill accept and reduce cells from the complete items. -/
def generateParsingTable (states : List State) (dfa : Dfa) (g : Grammar) :
    ParsingTable :=
  let ag := shiftGotoPhase dfa.edges g (initRows states, initRows states)
  ⟨reduceAccPhase states g.startSymbol ag.1, ag.2, g.terminals,
    g.nonTerminals.filter (fun nt => nt ≠ g.startSymbol), states.map (·.id)⟩

/-! ## parseString (src/unnamed/part_001 only) -/

/-- A JS stack entry of `parseString`: the stack interleaves grammar
symbols and state numbers.  `st none` models a pushed `NaN` (the result
of `parseInt` on a non-numeric suffix of a malformed action string). -/
inductive JEntry where
  | sym (s : String)
  | st (v : Option Nat)
deriving Repr, DecidableEq

/-- `stack[stack.length - 1]`, read as a state.  The stack is modelled
with its top at the head.  `none` is the `undefined` read off an empty
stack; a `sym` entry can never be on top (pushes always append a
symbol/state pair and `splice` removes an even number of entries or the
whole stack), and is mapped to `none` as well. -/
def topStateVal : List JEntry → Option (Option Nat)
  | .st v :: _ => some v
  | _ => none

/-- How a state value prints inside a template literal. -/
def stateStr : Option (Option Nat) → String
  | none => "undefined"
  | some none => "NaN"
  | some (some n) => Nat.repr n

/-- How the result of `parseInt` prints inside a template literal. -/
def optNatStr : Option Nat → String
  | none => "NaN"
  | some n => Nat.repr n

/-- JS `input.split(/\s+/)` on a raw (untrimmed) string: whitespace runs
separate the words, and leading/trailing whitespace contributes one empty
string at the corresponding end; `"".split(/\s+/)` is `[""]`. -/
def jsSplitWsFull (s : String) : List String :=
  let l := s.data
  if l.isEmpty then [""]
  else
    (if jsWsB (l.headD ' ') then [""] else []) ++
    (wordsAux l []).map (fun w => (⟨w⟩ : String)) ++
    (if jsWsB (l.getLastD ' ') then [""] else [])

structure ParseResult where
  isValid : Bool
  steps : List String
deriving Repr, DecidableEq

/-- The `while (true)` loop of `parseString`, fuelled.  The result is
`none` when the fuel runs out (in particular for configurations on which
the JS loop spins forever), `some (.error …)` when JS throws (reading
`.rhs` of `grammar.productions[id]` when `id` is `NaN` or out of range),
and `some (.ok r)` when JS returns `r`.

JS truthiness notes: an action or goto value `""` is falsy and takes the
corresponding missing-entry branch; a token read past the end of the
token array is the value `undefined`, which both prints as and is used as
the object key `"undefined"`, so it is modelled by that string. -/
def parseLoop (g : Grammar) (table : ParsingTable) (tokens : List String) :
    Nat → List JEntry → Nat → List String → Option (Except String ParseResult)
  | 0, _, _, _ => none
  | fuel + 1, stack, pointer, steps =>
    let curStV := topStateVal stack
    let currentToken := tokens.getD pointer "undefined"
    let action? := match curStV with
      | some (some n) => lookup2 table.actions n currentToken
      | _ => none
    match action? with
    | none => some (.ok ⟨false, steps ++
        ["Error: No action found for state " ++ stateStr curStV ++
          " and token " ++ currentToken]⟩)
    | some action =>
      if action = "" then
        some (.ok ⟨false, steps ++
          ["Error: No action found for state " ++ stateStr curStV ++
            " and token " ++ currentToken]⟩)
      else if action = "acc" then some (.ok ⟨true, steps ++ ["String accepted!"]⟩)
      else if jsStartsWith action "s" then
        let nextState := jsParseIntNat (jsSubstring1 action)
        parseLoop g table tokens fuel (.st nextState :: .sym currentToken :: stack)
          (pointer + 1)
          (steps ++ ["Shift: " ++ currentToken ++ " and go to state " ++ optNatStr nextState])
      else if jsStartsWith action "r" then
        match jsParseIntNat (jsSubstring1 action) with
        | none => some (.error "TypeError: Cannot read properties of undefined")
        | some productionId =>
          match g.productions.get? productionId with
          | none => some (.error "TypeError: Cannot read properties of undefined")
          | some production =>
            let popCount := production.rhs.length * 2
            if popCount > stack.length then
              some (.ok ⟨false, steps ++ ["Error: Stack underflow during reduction"]⟩)
            else
              -- JS `stack.splice(-popCount)` removes the last `popCount`
              -- entries when `popCount > 0`, but `-0 === 0`, so for an
              -- epsilon production `splice(-0)` empties the whole stack.
              let stack' := if popCount = 0 then [] else stack.drop popCount
              let newStV := topStateVal stack'
              let gotoState? := match newStV with
                | some (some n) => lookup2 table.gotos n production.lhs
                | _ => none
              match gotoState? with
              | none => some (.ok ⟨false, steps ++
                  ["Error: No goto state found for " ++ production.lhs ++
                    " in state " ++ stateStr newStV]⟩)
              | some gotoState =>
                if gotoState = "" then
                  some (.ok ⟨false, steps ++
                    ["Error: No goto state found for " ++ production.lhs ++
                      " in state " ++ stateStr newStV]⟩)
                else
                  parseLoop g table tokens fuel
                    (.st (jsParseIntNat gotoState) :: .sym production.lhs :: stack')
                    pointer
                    (steps ++ ["Reduce: " ++ production.lhs ++ " -> " ++
                      jsJoin " " production.rhs ++ " and go to state " ++ gotoState])
      else
        -- an action matching none of `acc`, `s…`, `r…` leaves the
        -- configuration unchanged: the JS loop spins forever
        parseLoop g table tokens fuel stack pointer steps

/-- `parseString(grammar, parsingTable, input)`, fuelled. -/
def parseString (g : Grammar) (table : ParsingTable) (input : String) (fuel : Nat) :
    Option (Except String ParseResult) :=
  parseLoop g table (jsSplitWsFull input ++ ["$"]) fuel [.st (some 0)] 0 []

/-! ## Generic helper lemmas -/

instance {ε α : Type} [DecidableEq ε] [DecidableEq α] : DecidableEq (Except ε α) := fun a b =>
  match a, b with
  | .ok x, .ok y =>
    if h : x = y then .isTrue (by rw [h]) else .isFalse (by intro hc; cases hc; exact h rfl)
  | .error x, .error y =>
    if h : x = y then .isTrue (by rw [h]) else .isFalse (by intro hc; cases hc; exact h rfl)
  | .ok _, .error _ => .isFalse (by intro hc; cases hc)
  | .error _, .ok _ => .isFalse (by intro hc; cases hc)

theorem strExt {a b : String} (h : a.data = b.data) : a = b := by
  cases a
  cases b
  exact congrArg String.mk h

theorem splitNlAux_ne_nil (l acc : List Char) : splitNlAux l acc ≠ [] := by
  induction l generalizing acc with
  | nil => simp [splitNlAux]
  | cons c rest ih =>
    simp only [splitNlAux]
    split
    · simp
    · exact ih _

theorem splitNl_ne_nil (s : String) : splitNl s ≠ [] :=
  splitNlAux_ne_nil _ _

theorem classifySymbols_error_shape {syms ts ns e} :
    classifySymbols syms ts ns = .error e →
    ∃ s, e = "Invalid symbol in production: " ++ s := by
  induction syms generalizing ts ns with
  | nil => intro h; simp [classifySymbols] at h
  | cons sym rest ih =>
    intro h
    simp only [classifySymbols] at h
    split at h
    · exact ih h
    · split at h
      · exact ih h
      · split at h
        · exact ih h
        · split at h
          · exact ⟨sym, ((Except.error.injEq _ _).mp h).symm⟩
          · exact ih h

theorem parseLoopLib_error_shape {lines i ps ts ns e} :
    parseLoopLib lines i ps ts ns = .error e →
    (∃ l, e = "Invalid production format: " ++ l) ∨
    (∃ s, e = "Invalid symbol in production: " ++ s) := by
  induction lines generalizing i ps ts ns with
  | nil => intro h; simp [parseLoopLib] at h
  | cons line rest ih =>
    intro h
    simp only [parseLoopLib] at h
    split at h
    · exact .inl ⟨line, ((Except.error.injEq _ _).mp h).symm⟩
    · split at h
      · rename_i e' heq
        exact .inr (classifySymbols_error_shape
          (((Except.error.injEq _ _).mp h) ▸ heq))
      · exact ih h

theorem parseLoopWeb_error_shape {lines i ps ts ns e} :
    parseLoopWeb lines i ps ts ns = .error e →
    (∃ l, e = "Invalid production format: " ++ l) ∨
    (∃ s, e = "Invalid symbol in production: " ++ s) := by
  induction lines generalizing i ps ts ns with
  | nil => intro h; simp [parseLoopWeb] at h
  | cons line rest ih =>
    intro h
    simp only [parseLoopWeb] at h
    split at h
    · exact .inl ⟨line, ((Except.error.injEq _ _).mp h).symm⟩
    · split at h
      · rename_i e' heq
        exact .inr (classifySymbols_error_shape
          (((Except.error.injEq _ _).mp h) ▸ heq))
      · exact ih h

theorem assembleGrammar_error_shape {ps ts ns e} :
    assembleGrammar ps ts ns = .error e →
    e = "TypeError: Cannot read properties of undefined" := by
  intro h
  simp only [assembleGrammar] at h
  split at h
  · exact ((Except.error.injEq _ _).mp h).symm
  · simp at h

theorem invalidFormat_ne_emptyMsg (l : String) :
    "Invalid production format: " ++ l ≠ "Grammar cannot be empty" := by
  intro h
  have h1 : ("Invalid production format: " ++ l).data.head? = some 'I' := rfl
  rw [h] at h1
  exact absurd h1 (by decide)

theorem invalidSymbol_ne_emptyMsg (s : String) :
    "Invalid symbol in production: " ++ s ≠ "Grammar cannot be empty" := by
  intro h
  have h1 : ("Invalid symbol in production: " ++ s).data.head? = some 'I' := rfl
  rw [h] at h1
  exact absurd h1 (by decide)

/-! ## C7 -/

/-- C7: the claim says an input with no production lines (empty or
whitespace-only) fails with the `EmptyGrammarError` ("Grammar cannot be
empty").  In fact that error is unreachable: JS `split` always returns at
least one element, so `lines.length === 0` never holds, and both copies
instead report the malformed-line syntax error on the empty line left by
trimming.  This theorem proves (i) no input whatsoever produces the
"Grammar cannot be empty" failure in either copy, and (ii) the empty and
whitespace-only inputs produce the `Invalid production format` syntax
error. -/
theorem c7_emptyGrammarError_unreachable :
    (∀ input : String,
      parseGrammarLib input ≠ .error "Grammar cannot be empty" ∧
      parseGrammarWeb input ≠ .error "Grammar cannot be empty") ∧
    parseGrammarLib "" = .error "Invalid production format: " ∧
    parseGrammarWeb "" = .error "Invalid production format: " ∧
    parseGrammarLib "  " = .error "Invalid production format: " ∧
    parseGrammarWeb "  " = .error "Invalid production format: " := by
  refine ⟨fun input => ⟨?_, ?_⟩, rfl, rfl, rfl, rfl⟩
  · intro h
    unfold parseGrammarLib at h
    rw [if_neg (by simpa using (splitNl_ne_nil (jsTrim input)))] at h
    split at h
    · rename_i e he
      have he' : e = "Grammar cannot be empty" := (Except.error.injEq _ _).mp h
      rcases parseLoopLib_error_shape he with ⟨l, hl⟩ | ⟨s, hs⟩
      · exact invalidFormat_ne_emptyMsg l (hl ▸ he')
      · exact invalidSymbol_ne_emptyMsg s (hs ▸ he')
    · rename_i ps ts ns heq
      rcases hA : assembleGrammar ps ts ns with e | g
      · rw [hA] at h
        have := assembleGrammar_error_shape hA
        have h2 := (Except.error.injEq _ _).mp h
        rw [this] at h2
        exact absurd h2 (by decide)
      · rw [hA] at h
        exact Except.noConfusion h
  · intro h
    unfold parseGrammarWeb at h
    rw [if_neg (by simpa using (splitNl_ne_nil (jsTrim input)))] at h
    split at h
    · rename_i e he
      have he' : e = "Grammar cannot be empty" := (Except.error.injEq _ _).mp h
      rcases parseLoopWeb_error_shape he with ⟨l, hl⟩ | ⟨s, hs⟩
      · exact invalidFormat_ne_emptyMsg l (hl ▸ he')
      · exact invalidSymbol_ne_emptyMsg s (hs ▸ he')
    · rename_i ps ts ns heq
      rcases hA : assembleGrammar ps ts ns with e | g
      · rw [hA] at h
        have := assembleGrammar_error_shape hA
        have h2 := (Except.error.injEq _ _).mp h
        rw [this] at h2
        exact absurd h2 (by decide)
      · rw [hA] at h
        exact Except.noConfusion h

/-! ## C3 -/

/-- C3: the claim says a line with right-hand side `ε` produces a
production with empty rhs.  The copy in src/unnamed/part_001 does; the
copy in src/lib/clr-parser.ts does not, because its test
`rhs === ["ε"]` compares array references and is always false, so the
epsilon marker itself is stored as the one rhs symbol (length 1). -/
theorem c3_epsilon_rhs_discrepancy :
    parseGrammarLib "S -> ε" =
      .ok ⟨[⟨"S'", ["S"], 0⟩, ⟨"S", ["ε"], 1⟩], ["$"], ["S", "S'"], "S'"⟩ ∧
    parseGrammarWeb "S -> ε" =
      .ok ⟨[⟨"S'", ["S"], 0⟩, ⟨"S", [], 1⟩], ["$"], ["S", "S'"], "S'"⟩ ∧
    parseGrammarLib "S -> ε" ≠ parseGrammarWeb "S -> ε" :=
  ⟨rfl, rfl, by decide⟩

/-! ## C4 -/

/-- No line of the input denotes an epsilon production: for every line
matching the production pattern, the computed right-hand side is not the
singleton epsilon marker. -/
def noEpsLine (lines : List String) : Bool :=
  lines.all (fun line =>
    match matchProd line with
    | none => true
    | some (_, rhsRaw) =>
      let t := jsTrim rhsRaw
      !((if t = "ε" ∨ t = "" then ["ε"] else wordsOfStr t) == ["ε"]))

theorem parseLoop_lib_eq_web {lines : List String} (h : noEpsLine lines = true) :
    ∀ i ps ts ns, parseLoopLib lines i ps ts ns = parseLoopWeb lines i ps ts ns := by
  induction lines with
  | nil => intro i ps ts ns; rfl
  | cons line rest ih =>
    intro i ps ts ns
    simp only [noEpsLine, List.all_cons, Bool.and_eq_true] at h
    obtain ⟨hline, hrest⟩ := h
    simp only [parseLoopLib, parseLoopWeb]
    cases hm : matchProd line with
    | none => rfl
    | some p =>
      obtain ⟨lhs, rhsRaw⟩ := p
      rw [hm] at hline
      simp only [Bool.not_eq_true', beq_eq_false_iff_ne, ne_eq] at hline
      cases hc : classifySymbols
          (if jsTrim rhsRaw = "ε" ∨ jsTrim rhsRaw = "" then ["ε"] else wordsOfStr (jsTrim rhsRaw))
          ts (setAdd ns lhs) with
      | error e => simp only [hc]
      | ok tsns =>
        obtain ⟨ts2, ns2⟩ := tsns
        simp only [hc]
        rw [if_neg hline]
        exact ih hrest _ _ _ _

/-- C4: the claim says the two copies of the algorithm are equivalent on
every input.  They are not: on `"S -> ε"` the two `parseGrammar` copies
return different `Grammar` values (see `c3_epsilon_rhs_discrepancy`), so
the claim as stated is false.  This counterexample exhibits the
difference at that explicit input. -/
theorem c4_copies_differ_on_epsilon :
    parseGrammarLib "S -> ε" ≠ parseGrammarWeb "S -> ε" ∧
    parseGrammarLib "S -> ε" =
      .ok ⟨[⟨"S'", ["S"], 0⟩, ⟨"S", ["ε"], 1⟩], ["$"], ["S", "S'"], "S'"⟩ ∧
    parseGrammarWeb "S -> ε" =
      .ok ⟨[⟨"S'", ["S"], 0⟩, ⟨"S", [], 1⟩], ["$"], ["S", "S'"], "S'"⟩ :=
  ⟨by decide, rfl, rfl⟩

/-- C4 (amended): the two `parseGrammar` copies agree (same error or same
`Grammar`) on every input none of whose lines denotes an epsilon
production; the remaining pipeline functions (`generateClrItems`,
`generateDfa`, `generateParsingTable`) are textually identical in the two
source files (embedded here once), so on equal grammars they trivially
agree.  The copies differ exactly on inputs with an epsilon production
line, where the lib copy stores `["ε"]` and the part_001 copy stores
`[]`. -/
theorem c4_copies_agree_without_epsilon (input : String)
    (h : noEpsLine (splitNl (jsTrim input)) = true) :
    parseGrammarLib input = parseGrammarWeb input := by
  unfold parseGrammarLib parseGrammarWeb
  simp only [parseLoop_lib_eq_web h]

/-- Witness for `c4_copies_agree_without_epsilon` at a concrete input. -/
theorem c4_witness :
    noEpsLine (splitNl (jsTrim "S -> A A\nA -> a A\nA -> b")) = true ∧
    parseGrammarLib "S -> A A\nA -> a A\nA -> b" =
      parseGrammarWeb "S -> A A\nA -> a A\nA -> b" :=
  ⟨by decide, c4_copies_agree_without_epsilon _ (by decide)⟩

/-! ## C9 -/

theorem split_at_space_unique :
    ∀ (xa xb ta tb : List Char), ' ' ∉ xa → ' ' ∉ xb →
      xa ++ ' ' :: ta = xb ++ ' ' :: tb → xa = xb ∧ ta = tb := by
  intro xa
  induction xa with
  | nil =>
    intro xb ta tb _ hxb h
    cases xb with
    | nil => simpa using h
    | cons c xb' =>
      simp only [List.nil_append, List.cons_append, List.cons.injEq] at h
      exact absurd (h.1 ▸ List.mem_cons_self c xb') hxb
  | cons c xa' ih =>
    intro xb ta tb hxa hxb h
    cases xb with
    | nil =>
      simp only [List.cons_append, List.nil_append, List.cons.injEq] at h
      exact absurd (h.1 ▸ List.mem_cons_self c xa') hxa
    | cons d xb' =>
      simp only [List.cons_append, List.cons.injEq] at h
      obtain ⟨rfl, h2⟩ := h
      have := ih xb' ta tb (fun hm => hxa (List.mem_cons_of_mem _ hm))
        (fun hm => hxb (List.mem_cons_of_mem _ hm)) h2
      exact ⟨by rw [this.1], this.2⟩

/-- Symbols that can appear in a production's rhs: non-empty and
space-free (every symbol produced by `parseGrammar` splits on whitespace,
so contains no space). -/
def cleanSym (s : String) : Prop := s ≠ "" ∧ ' ' ∉ s.data

theorem jsJoin_space_inj :
    ∀ l1 l2 : List String, (∀ s ∈ l1, cleanSym s) → (∀ s ∈ l2, cleanSym s) →
      jsJoin " " l1 = jsJoin " " l2 → l1 = l2 := by
  intro l1
  induction l1 with
  | nil =>
    intro l2 _ h2 h
    cases l2 with
    | nil => rfl
    | cons b l2' =>
      cases l2' with
      | nil =>
        exact absurd (congrArg String.data h.symm ▸ rfl : b.data = []).symm
          (by simpa [String.ext_iff] using (h2 b (by simp)).1.symm)
      | cons c t =>
        exfalso
        have hd := congrArg String.data h
        simp only [jsJoin, String.data_append] at hd
        cases hb : b.data with
        | nil => exact (h2 b (by simp)).1 (strExt hb)
        | cons x xs => rw [hb] at hd; simp at hd
  | cons a l1' ih =>
    intro l2 h1 h2 h
    cases l2 with
    | nil =>
      cases l1' with
      | nil =>
        exact absurd (strExt (by simpa using congrArg String.data h))
          (h1 a (by simp)).1
      | cons c t =>
        exfalso
        have hd := congrArg String.data h
        simp only [jsJoin, String.data_append] at hd
        cases ha : a.data with
        | nil => exact (h1 a (by simp)).1 (strExt ha)
        | cons x xs => rw [ha] at hd; simp at hd
    | cons b l2' =>
      cases l1' with
      | nil =>
        cases l2' with
        | nil => rw [show a = b from h]
        | cons c t =>
          exfalso
          have hd := congrArg String.data h
          simp only [jsJoin, String.data_append] at hd
          have : ' ' ∈ a.data := by
            rw [hd]
            simp
          exact (h1 a (by simp)).2 this
      | cons e u =>
        cases l2' with
        | nil =>
          exfalso
          have hd := congrArg String.data h
          simp only [jsJoin, String.data_append] at hd
          have : ' ' ∈ b.data := by
            rw [← hd]
            simp
          exact (h2 b (by simp)).2 this
        | cons c t =>
          have hd := congrArg String.data h
          simp only [jsJoin, String.data_append, List.append_assoc,
            List.singleton_append] at hd
          have hsp := split_at_space_unique a.data b.data _ _
            (h1 a (by simp)).2 (h2 b (by simp)).2 hd
          have hab : a = b := strExt hsp.1
          have htail : jsJoin " " (e :: u) = jsJoin " " (c :: t) := strExt hsp.2
          have := ih (c :: t) (fun s hs => h1 s (List.mem_cons_of_mem _ hs))
            (fun s hs => h2 s (List.mem_cons_of_mem _ hs)) htail
          rw [hab, this]

theorem arraysEqual_singleton (a b : String) :
    arraysEqual [a] [b] = true ↔ b = a := by
  simp [arraysEqual, List.contains]

/-- C9: the claim says `itemsEqual` returns true iff production id, dot
position and lookahead all match.  It is false: `itemsEqual` never
consults production ids, so in a grammar with two distinct productions of
identical lhs and rhs (here `"S -> a\nS -> a"`, parsed successfully with
ids 1 and 2) the corresponding items compare equal despite distinct
ids. -/
theorem c9_itemsEqual_ignores_ids :
    parseGrammarWeb "S -> a\nS -> a" =
      .ok ⟨[⟨"S'", ["S"], 0⟩, ⟨"S", ["a"], 1⟩, ⟨"S", ["a"], 2⟩],
        ["a", "$"], ["S", "S'"], "S'"⟩ ∧
    itemsEqual ⟨⟨"S", ["a"], 1⟩, 0, ["$"]⟩ ⟨⟨"S", ["a"], 2⟩, 0, ["$"]⟩ = true ∧
    (⟨"S", ["a"], 1⟩ : Production).id ≠ (⟨"S", ["a"], 2⟩ : Production).id :=
  ⟨rfl, rfl, by decide⟩

/-- C9 (amended): for items whose rhs symbols are non-empty and space-free
and whose lookaheads are singletons (as in every item the pipeline
builds), `itemsEqual` returns true iff the two items agree on production
lhs, production rhs, dot position and lookahead — the production *content*
rather than its id. -/
theorem c9_itemsEqual_iff_content (i1 i2 : Item)
    (h1 : ∀ s ∈ i1.production.rhs, cleanSym s)
    (h2 : ∀ s ∈ i2.production.rhs, cleanSym s)
    (hl1 : ∃ a, i1.lookahead = [a]) (hl2 : ∃ b, i2.lookahead = [b]) :
    itemsEqual i1 i2 = true ↔
      (i1.production.lhs = i2.production.lhs ∧
       i1.production.rhs = i2.production.rhs ∧
       i1.dotPosition = i2.dotPosition ∧
       i1.lookahead = i2.lookahead) := by
  obtain ⟨a, ha⟩ := hl1
  obtain ⟨b, hb⟩ := hl2
  simp only [itemsEqual, Bool.and_eq_true, beq_iff_eq]
  constructor
  · rintro ⟨⟨⟨hlhs, hjoin⟩, hdot⟩, harr⟩
    refine ⟨hlhs, jsJoin_space_inj _ _ h1 h2 hjoin, hdot, ?_⟩
    rw [ha, hb] at harr ⊢
    rw [(arraysEqual_singleton a b).mp harr]
  · rintro ⟨hlhs, hrhs, hdot, hla⟩
    refine ⟨⟨⟨hlhs, by rw [hrhs]⟩, hdot⟩, ?_⟩
    rw [ha, hb] at hla
    rw [ha, hb, (List.cons.injEq _ _ _ _).mp hla |>.1]
    exact (arraysEqual_singleton b b).mpr rfl

/-- Witness for `c9_itemsEqual_iff_content` at concrete items. -/
theorem c9_witness :
    itemsEqual ⟨⟨"A", ["a", "B"], 2⟩, 1, ["b"]⟩ ⟨⟨"A", ["a", "B"], 2⟩, 1, ["b"]⟩ = true ∧
    ((⟨⟨"A", ["a", "B"], 2⟩, 1, ["b"]⟩ : Item).production.lhs = "A") :=
  ⟨(c9_itemsEqual_iff_content ⟨⟨"A", ["a", "B"], 2⟩, 1, ["b"]⟩ ⟨⟨"A", ["a", "B"], 2⟩, 1, ["b"]⟩
      (by intro s hs; fin_cases hs <;> exact ⟨by decide, by decide⟩)
      (by intro s hs; fin_cases hs <;> exact ⟨by decide, by decide⟩)
      ⟨"b", rfl⟩ ⟨"b", rfl⟩).mpr ⟨rfl, rfl, rfl, rfl⟩, rfl⟩

/-! ## C8 helper lemmas -/

theorem not_ws_of_alnum {c : Char} (h : isAlnumB c = true) : jsWsB c = false := by
  cases hw : jsWsB c with
  | false => rfl
  | true =>
    exfalso
    simp only [jsWsB, Bool.or_eq_true, beq_iff_eq] at hw
    rcases hw with ((((hc | hc) | hc) | hc) | hc) | hc <;>
      (rw [hc] at h; revert h; decide)

theorem alnum_of_upper {c : Char} (h : isUpperAZ c = true) : isAlnumB c = true := by
  simp [isAlnumB, h]

theorem not_ws_of_upper {c : Char} (h : isUpperAZ c = true) : jsWsB c = false :=
  not_ws_of_alnum (alnum_of_upper h)

theorem ne_nl_of_alnum {c : Char} (h : isAlnumB c = true) : c ≠ '\n' := by
  intro hc
  have := not_ws_of_alnum h
  rw [hc] at this
  exact absurd this (by decide)

theorem ne_nl_of_upper {c : Char} (h : isUpperAZ c = true) : c ≠ '\n' :=
  ne_nl_of_alnum (by simp [isAlnumB, h])

theorem takeWhile_append_all {p : Char → Bool} {l1 : List Char} (l2 : List Char)
    (h : ∀ a ∈ l1, p a = true) : (l1 ++ l2).takeWhile p = l1 ++ l2.takeWhile p := by
  induction l1 with
  | nil => simp
  | cons a l ih =>
    have ha : p a = true := h a (by simp)
    simp [List.takeWhile_cons, ha, ih (fun x hx => h x (by simp [hx]))]

theorem dropWhile_append_all {p : Char → Bool} {l1 : List Char} (l2 : List Char)
    (h : ∀ a ∈ l1, p a = true) : (l1 ++ l2).dropWhile p = l2.dropWhile p := by
  induction l1 with
  | nil => simp
  | cons a l ih =>
    have ha : p a = true := h a (by simp)
    simp [List.dropWhile_cons, ha, ih (fun x hx => h x (by simp [hx]))]

theorem splitNlAux_no_nl {l : List Char} (acc : List Char) (h : '\n' ∉ l) :
    splitNlAux l acc = [⟨acc.reverse ++ l⟩] := by
  induction l generalizing acc with
  | nil => simp [splitNlAux]
  | cons c rest ih =>
    simp only [splitNlAux]
    rw [if_neg (fun hc => h (by rw [← hc]; exact List.mem_cons_self c rest))]
    rw [ih (c :: acc) (fun hm => h (List.mem_cons_of_mem _ hm))]
    simp

theorem splitNl_single {s : String} (h : '\n' ∉ s.data) : splitNl s = [s] := by
  unfold splitNl
  rw [splitNlAux_no_nl [] h]
  simp only [List.reverse_nil, List.nil_append]

theorem jsTrim_of_ends {c d : Char} (m : List Char)
    (hc : jsWsB c = false) (hd : jsWsB d = false) :
    jsTrim ⟨c :: (m ++ [d])⟩ = ⟨c :: (m ++ [d])⟩ := by
  have h1 : (c :: (m ++ [d])).dropWhile jsWsB = c :: (m ++ [d]) := by
    simp [List.dropWhile_cons, hc]
  have h2 : (c :: (m ++ [d])).reverse = d :: (m.reverse ++ [c]) := by
    simp
  have h3 : (d :: (m.reverse ++ [c])).dropWhile jsWsB = d :: (m.reverse ++ [c]) := by
    simp [List.dropWhile_cons, hd]
  unfold jsTrim dropTrailWs
  show (⟨((c :: (m ++ [d])).dropWhile jsWsB |>.reverse.dropWhile jsWsB).reverse⟩ : String) = _
  rw [h1, h2, h3, ← h2]
  simp

theorem aug_ne_self (lhs : String) : lhs ++ "'" ≠ lhs := by
  intro h
  have := congrArg (fun s => s.data.length) h
  simp [String.data_append] at this

/-- Decomposition of a string passing the nonterminal-identifier test. -/
theorem nonTerminalTok_shape {lhs : String} (h : isNonTerminalTok lhs = true) :
    ∃ c r, lhs.data = c :: r ∧ isUpperAZ c = true ∧ (∀ a ∈ r, isAlnumB a = true) := by
  unfold isNonTerminalTok at h
  cases hld : lhs.data with
  | nil => rw [hld] at h; simp at h
  | cons c r =>
    rw [hld] at h
    simp only [Bool.and_eq_true, List.all_eq_true] at h
    exact ⟨c, r, rfl, h.1, h.2⟩

/-- `matchProd` rejects a line consisting of a nonterminal identifier, a
space, and the bare arrow: the regex's `(.+)` group needs at least one
character after the arrow. -/
theorem matchProd_bare_arrow {lhs : String} (h : isNonTerminalTok lhs = true) :
    matchProd (lhs ++ " ->") = none := by
  obtain ⟨c, r, hdata, hc, hr⟩ := nonTerminalTok_shape h
  have hdata2 : (lhs ++ " ->").data = c :: (r ++ [' ', '-', '>']) := by
    simp [String.data_append, hdata]
  have hdrop : (lhs ++ " ->").data.dropWhile jsWsB = c :: (r ++ [' ', '-', '>']) := by
    rw [hdata2]
    simp [List.dropWhile_cons, not_ws_of_upper hc]
  have h1 : ((r ++ [' ', '-', '>']).dropWhile isAlnumB).dropWhile jsWsB = ['-', '>'] := by
    rw [dropWhile_append_all _ hr]
    decide
  unfold matchProd
  rw [hdrop]
  simp only [hc, if_true, h1]
  rfl

/-- `matchProd` accepts `LHS -> ε`, capturing the identifier and the raw
remainder `" ε"`. -/
theorem matchProd_eps_line {lhs : String} (h : isNonTerminalTok lhs = true) :
    matchProd (lhs ++ " -> ε") = some (lhs, ⟨[' ', 'ε']⟩) := by
  obtain ⟨c, r, hdata, hc, hr⟩ := nonTerminalTok_shape h
  have hdata2 : (lhs ++ " -> ε").data = c :: (r ++ [' ', '-', '>', ' ', 'ε']) := by
    simp [String.data_append, hdata]
  have hdrop : (lhs ++ " -> ε").data.dropWhile jsWsB = c :: (r ++ [' ', '-', '>', ' ', 'ε']) := by
    rw [hdata2]
    simp [List.dropWhile_cons, not_ws_of_upper hc]
  have h1 : ((r ++ [' ', '-', '>', ' ', 'ε']).dropWhile isAlnumB).dropWhile jsWsB =
      ['-', '>', ' ', 'ε'] := by
    rw [dropWhile_append_all _ hr]
    decide
  have h2 : (r ++ [' ', '-', '>', ' ', 'ε']).takeWhile isAlnumB = r := by
    rw [takeWhile_append_all _ hr,
      (by decide : List.takeWhile isAlnumB [' ', '-', '>', ' ', 'ε'] = ([] : List Char))]
    simp
  unfold matchProd
  rw [hdrop]
  simp only [hc, if_true, h1, h2]
  simp only [List.isEmpty_cons, Bool.false_eq_true, if_false, Option.some.injEq,
    Prod.mk.injEq]
  exact ⟨strExt (by rw [hdata]), by trivial⟩

theorem no_nl_of_shape {c : Char} {r : List Char} (hc : isUpperAZ c = true)
    (hr : ∀ a ∈ r, isAlnumB a = true) (tail : List Char) (htail : '\n' ∉ tail) :
    '\n' ∉ c :: (r ++ tail) := by
  intro hm
  rcases List.mem_cons.mp hm with hm | hm
  · exact ne_nl_of_upper hc hm.symm
  · rcases List.mem_append.mp hm with hm | hm
    · exact ne_nl_of_alnum (hr _ hm) rfl
    · exact htail hm

/-! ## C8 theorems -/

/-- C8: the claim says a line of the form `LHS ->` (valid nonterminal,
arrow, nothing after it) is accepted and recorded as an epsilon
production.  It is not: the regex group `(.+)` requires at least one
character after the arrow, so both copies reject the line `"S ->"` with
the `Invalid production format` syntax error. -/
theorem c8_bare_arrow_rejected :
    parseGrammarWeb "S ->" = .error ("Invalid production format: " ++ "S ->") ∧
    parseGrammarLib "S ->" = .error ("Invalid production format: " ++ "S ->") :=
  ⟨rfl, rfl⟩

/-- C8 (amended): for every valid nonterminal identifier `LHS`, the line
`LHS ->` with nothing after the arrow fails with the syntax error (the
`(.+)` group needs a character), while the epsilon marker form `LHS -> ε`
is accepted and recorded as an epsilon production (empty rhs in the
part_001 copy). -/
theorem c8_bare_arrow_vs_eps_marker (lhs : String) (h : isNonTerminalTok lhs = true) :
    parseGrammarWeb (lhs ++ " ->") =
      .error ("Invalid production format: " ++ (lhs ++ " ->")) ∧
    parseGrammarWeb (lhs ++ " -> ε") =
      .ok ⟨[⟨lhs ++ "'", [lhs], 0⟩, ⟨lhs, [], 1⟩], ["$"], [lhs, lhs ++ "'"], lhs ++ "'"⟩ := by
  obtain ⟨c, r, hdata, hc, hr⟩ := nonTerminalTok_shape h
  constructor
  · have hshape : lhs ++ " ->" = ⟨c :: ((r ++ [' ', '-']) ++ ['>'])⟩ :=
      strExt (by simp [String.data_append, hdata])
    have htrim : jsTrim (lhs ++ " ->") = lhs ++ " ->" := by
      rw [hshape]
      exact jsTrim_of_ends _ (not_ws_of_upper hc) (by decide)
    have hnl : '\n' ∉ (lhs ++ " ->").data := by
      rw [(show (lhs ++ " ->").data = c :: (r ++ [' ', '-', '>']) by
        simp [String.data_append, hdata])]
      exact no_nl_of_shape hc hr [' ', '-', '>'] (by decide)
    unfold parseGrammarWeb
    rw [htrim, splitNl_single hnl]
    rw [if_neg (by simp)]
    simp only [parseLoopWeb, matchProd_bare_arrow h]
  · have hshape : lhs ++ " -> ε" = ⟨c :: ((r ++ [' ', '-', '>', ' ']) ++ ['ε'])⟩ :=
      strExt (by simp [String.data_append, hdata])
    have htrim : jsTrim (lhs ++ " -> ε") = lhs ++ " -> ε" := by
      rw [hshape]
      exact jsTrim_of_ends _ (not_ws_of_upper hc) (by decide)
    have hnl : '\n' ∉ (lhs ++ " -> ε").data := by
      rw [(show (lhs ++ " -> ε").data = c :: (r ++ [' ', '-', '>', ' ', 'ε']) by
        simp [String.data_append, hdata])]
      exact no_nl_of_shape hc hr [' ', '-', '>', ' ', 'ε'] (by decide)
    unfold parseGrammarWeb
    rw [htrim, splitNl_single hnl]
    rw [if_neg (by simp)]
    have hstep : parseLoopWeb [lhs ++ " -> ε"] 0 [] [] [] =
        .ok ([⟨lhs, [], 1⟩], [], [lhs]) := by
      simp only [parseLoopWeb, matchProd_eps_line h]
      rfl
    rw [hstep]
    show assembleGrammar [⟨lhs, [], 1⟩] [] [lhs] = _
    unfold assembleGrammar
    simp only [List.head?_cons]
    rw [show setAdd [lhs] (lhs ++ "'") = [lhs, lhs ++ "'"] by
      unfold setAdd
      rw [if_neg (by simp [aug_ne_self lhs])]
      rfl]
    rfl

/-- Witness for `c8_bare_arrow_vs_eps_marker` at `lhs = "S"`. -/
theorem c8_witness :
    isNonTerminalTok "S" = true ∧
    parseGrammarWeb ("S" ++ " ->") =
      .error ("Invalid production format: " ++ ("S" ++ " ->")) :=
  ⟨by decide, (c8_bare_arrow_vs_eps_marker "S" (by decide)).1⟩

/-! ## C6 -/

/-- The grammar parsed from `"S -> A C\nA -> a\nC -> C b\nC -> c"` — a
syntactically valid grammar whose nonterminal `C` is left-recursive. -/
def gC6 : Grammar :=
  ⟨[⟨"S'", ["S"], 0⟩, ⟨"S", ["A", "C"], 1⟩, ⟨"A", ["a"], 2⟩, ⟨"C", ["C", "b"], 3⟩,
    ⟨"C", ["c"], 4⟩], ["a", "b", "c", "$"], ["S", "A", "C", "S'"], "S'"⟩

theorem gC6_parsed : parseGrammarWeb "S -> A C\nA -> a\nC -> C b\nC -> c" = .ok gC6 := rfl

/-- `computeFirst(gC6, ["C", "b"])` recurses on identical arguments
through the production `C -> C b` and never returns. -/
theorem cf_Cb_none : ∀ n, computeFirstF n gC6 ["C", "b"] = none := by
  intro n
  induction n with
  | zero => rfl
  | succ n ih =>
    simp only [computeFirstF]
    rw [if_neg (by decide)]
    simp only [gC6] at ih ⊢
    simp [List.foldlM, ih]

/-- `computeFirst(gC6, ["C", "$"])` diverges as well: its first
`C`-production immediately calls `computeFirst(gC6, ["C", "b"])`. -/
theorem cf_Cdollar_none : ∀ n, computeFirstF n gC6 ["C", "$"] = none := by
  intro n
  cases n with
  | zero => rfl
  | succ n =>
    have ih := cf_Cb_none n
    simp only [computeFirstF]
    rw [if_neg (by decide)]
    simp only [gC6] at ih ⊢
    simp [List.foldlM, ih]

/-- A step of the closure scan whose FIRST computation diverges makes the
whole scan diverge. -/
theorem closScan_none_of_cf {sf cfFuel : Nat} {g : Grammar} {result : List Item} {i : Nat}
    {changed : Bool} (h : i < result.length)
    (hdot : (result.get ⟨i, h⟩).dotPosition < (result.get ⟨i, h⟩).production.rhs.length)
    (hnt : g.nonTerminals.contains
      ((result.get ⟨i, h⟩).production.rhs.getD (result.get ⟨i, h⟩).dotPosition "") = true)
    (hcf : computeFirstF cfFuel g
      ((result.get ⟨i, h⟩).production.rhs.drop ((result.get ⟨i, h⟩).dotPosition + 1) ++
        (result.get ⟨i, h⟩).lookahead) = none) :
    closScan (sf + 1) cfFuel g result i changed = none := by
  simp only [closScan]
  rw [dif_pos h, if_pos hdot, if_pos hnt, hcf]

/-- C6: the claim says closure terminates for every grammar returned by
`parseGrammar` with no precondition beyond syntactic validity.  It does
not: on the syntactically valid grammar `"S -> A C\nA -> a\nC -> C b\nC -> c"`,
the very first closure call of the pipeline (on the initial item
`S' -> • S, $`) reaches the item `S -> • A C, $` and asks for
`FIRST(["C", "$"])`; `computeFirst` has no visited set and recurses on
identical arguments through `C -> C b`, so it — and hence `closure` —
never returns (the fuelled embedding yields `none` for every fuel). -/
theorem c6_closure_diverges_on_left_recursion :
    parseGrammarWeb "S -> A C\nA -> a\nC -> C b\nC -> c" = .ok gC6 ∧
    (∀ fuel, computeFirstF fuel gC6 ["C", "$"] = none) ∧
    (∀ fuel, closureF fuel gC6 [⟨⟨"S'", ["S"], 0⟩, 0, ["$"]⟩] = none) := by
  refine ⟨rfl, cf_Cdollar_none, ?_⟩
  intro fuel
  cases fuel with
  | zero => rfl
  | succ f =>
    show closRun (f + 1) (f + 1) gC6 [⟨⟨"S'", ["S"], 0⟩, 0, ["$"]⟩] = none
    unfold closRun
    have hstep : closScan (f + 1) (f + 1) gC6 [⟨⟨"S'", ["S"], 0⟩, 0, ["$"]⟩] 0 false =
        closScan f (f + 1) gC6
          [⟨⟨"S'", ["S"], 0⟩, 0, ["$"]⟩, ⟨⟨"S", ["A", "C"], 1⟩, 0, ["$"]⟩] 1 true := by
      rfl
    rw [hstep]
    have hscan : closScan f (f + 1) gC6
        [⟨⟨"S'", ["S"], 0⟩, 0, ["$"]⟩, ⟨⟨"S", ["A", "C"], 1⟩, 0, ["$"]⟩] 1 true = none := by
      cases f with
      | zero => rfl
      | succ f' =>
        exact closScan_none_of_cf (by decide) (by decide) (by decide)
          (cf_Cdollar_none (f' + 1 + 1))
    rw [hscan]

/-! ## Association-map lemmas for the table phases -/

theorem lookup_cons_hit {α β : Type} [BEq α] {k a : α} {b : β} {es : List (α × β)}
    (h : (a == k) = true) : ((k, b) :: es).lookup a = some b := by
  rw [List.lookup_cons, h]

theorem lookup_cons_miss {α β : Type} [BEq α] {k a : α} {b : β} {es : List (α × β)}
    (h : (a == k) = false) : ((k, b) :: es).lookup a = es.lookup a := by
  rw [List.lookup_cons, h]

theorem aset_lookup_self (m : List (String × String)) (k v : String) :
    (aset m k v).lookup k = some v := by
  induction m with
  | nil => exact lookup_cons_hit (by simp)
  | cons kv rest ih =>
    obtain ⟨k', v'⟩ := kv
    simp only [aset]
    by_cases hk : k' = k
    · subst hk
      simp only [beq_self_eq_true, if_true]
      exact lookup_cons_hit (by simp)
    · rw [if_neg (by simpa using hk)]
      rw [lookup_cons_miss (by simp [Ne.symm hk])]
      exact ih

theorem aset_lookup_other (m : List (String × String)) (k v t : String) (h : t ≠ k) :
    (aset m k v).lookup t = m.lookup t := by
  induction m with
  | nil =>
    simp only [aset]
    rw [lookup_cons_miss (by simp [h])]
  | cons kv rest ih =>
    obtain ⟨k', v'⟩ := kv
    simp only [aset]
    by_cases hk : k' = k
    · subst hk
      simp only [beq_self_eq_true, if_true]
      rw [lookup_cons_miss (by simp [h]), lookup_cons_miss (by simp [h])]
    · rw [if_neg (by simpa using hk)]
      by_cases ht : t = k'
      · subst ht
        rw [lookup_cons_hit (by simp), lookup_cons_hit (by simp)]
      · rw [lookup_cons_miss (by simp [ht]), lookup_cons_miss (by simp [ht])]
        exact ih

theorem osetUpd_lookup_other (m : List (Nat × List (String × String))) (k : Nat)
    (t v : String) (k' : Nat) (h : k' ≠ k) :
    (osetUpd m k t v).lookup k' = m.lookup k' := by
  induction m with
  | nil => simp [osetUpd]
  | cons kv rest ih =>
    obtain ⟨k0, row⟩ := kv
    simp only [osetUpd]
    by_cases hk : k0 = k
    · subst hk
      simp only [beq_self_eq_true, if_true]
      rw [lookup_cons_miss (by simp [h]), lookup_cons_miss (by simp [h])]
    · rw [if_neg (by simpa using hk)]
      by_cases ht : k' = k0
      · subst ht
        rw [lookup_cons_hit (by simp), lookup_cons_hit (by simp)]
      · rw [lookup_cons_miss (by simp [ht]), lookup_cons_miss (by simp [ht])]
        exact ih

theorem osetUpd_lookup_self {m : List (Nat × List (String × String))} {k : Nat} {row}
    (hrow : m.lookup k = some row) (t v : String) :
    (osetUpd m k t v).lookup k = some (aset row t v) := by
  induction m with
  | nil => simp at hrow
  | cons kv rest ih =>
    obtain ⟨k0, row0⟩ := kv
    simp only [osetUpd]
    by_cases hk : k0 = k
    · subst hk
      rw [lookup_cons_hit (by simp)] at hrow
      simp only [beq_self_eq_true, if_true]
      rw [lookup_cons_hit (by simp)]
      rw [(by simpa using hrow : row0 = row)]
    · rw [if_neg (by simpa using hk)]
      rw [lookup_cons_miss (by simp [Ne.symm hk])] at hrow
      rw [lookup_cons_miss (by simp [Ne.symm hk])]
      exact ih hrow

theorem osetUpd_lookup_missing {m : List (Nat × List (String × String))} {k : Nat}
    (hrow : m.lookup k = none) (t v : String) :
    (osetUpd m k t v).lookup k = none := by
  induction m with
  | nil => simp [osetUpd]
  | cons kv rest ih =>
    obtain ⟨k0, row0⟩ := kv
    simp only [osetUpd]
    by_cases hk : k0 = k
    · subst hk
      rw [lookup_cons_hit (by simp)] at hrow
      exact absurd hrow (by simp)
    · rw [if_neg (by simpa using hk)]
      rw [lookup_cons_miss (by simp [Ne.symm hk])] at hrow
      rw [lookup_cons_miss (by simp [Ne.symm hk])]
      exact ih hrow

theorem lookup2_osetUpd_self {m : List (Nat × List (String × String))} {k : Nat}
    (hpres : (m.lookup k).isSome) (t v : String) :
    lookup2 (osetUpd m k t v) k t = some v := by
  obtain ⟨row, hrow⟩ := Option.isSome_iff_exists.mp hpres
  unfold lookup2
  rw [osetUpd_lookup_self hrow]
  simp [aset_lookup_self]

theorem lookup2_osetUpd_other {m : List (Nat × List (String × String))} {k : Nat}
    {t v : String} {k' : Nat} {t' : String} (h : k' ≠ k ∨ t' ≠ t) :
    lookup2 (osetUpd m k t v) k' t' = lookup2 m k' t' := by
  unfold lookup2
  rcases h with h | h
  · rw [osetUpd_lookup_other _ _ _ _ _ h]
  · by_cases hk : k' = k
    · subst hk
      cases hrow : m.lookup k' with
      | none => rw [osetUpd_lookup_missing hrow]
      | some row =>
        rw [osetUpd_lookup_self hrow]
        simp [aset_lookup_other _ _ _ _ h]
    · rw [osetUpd_lookup_other _ _ _ _ _ hk]

theorem lookup2_osetUpd_cases {m : List (Nat × List (String × String))} {k : Nat}
    {t v : String} {k' : Nat} {t' : String} {w : String}
    (h : lookup2 (osetUpd m k t v) k' t' = some w) :
    (k' = k ∧ t' = t ∧ w = v) ∨ lookup2 m k' t' = some w := by
  by_cases hk : k' = k
  · by_cases ht : t' = t
    · subst hk; subst ht
      cases hpres : m.lookup k' with
      | none =>
        right
        rw [← h]
        unfold lookup2
        rw [osetUpd_lookup_missing hpres, hpres]
      | some row =>
        left
        have hself := @lookup2_osetUpd_self m k' (by simp [hpres]) t' v
        rw [hself] at h
        exact ⟨rfl, rfl, (Option.some.injEq _ _).mp h.symm⟩
    · right
      rw [← lookup2_osetUpd_other (Or.inr ht)]
      exact h
  · right
    rw [← lookup2_osetUpd_other (Or.inl hk)]
    exact h

theorem osetInit_lookup_self (m : List (Nat × List (String × String))) (k : Nat) :
    (osetInit m k).lookup k = some [] := by
  induction m with
  | nil => exact lookup_cons_hit (by simp)
  | cons kv rest ih =>
    obtain ⟨k0, row0⟩ := kv
    simp only [osetInit]
    by_cases hk : k0 = k
    · subst hk
      simp only [beq_self_eq_true, if_true]
      exact lookup_cons_hit (by simp)
    · rw [if_neg (by simpa using hk)]
      rw [lookup_cons_miss (by simp [Ne.symm hk])]
      exact ih

theorem osetInit_lookup_other (m : List (Nat × List (String × String))) (k k' : Nat)
    (h : k' ≠ k) : (osetInit m k).lookup k' = m.lookup k' := by
  induction m with
  | nil =>
    simp only [osetInit]
    rw [lookup_cons_miss (by simp [h])]
  | cons kv rest ih =>
    obtain ⟨k0, row0⟩ := kv
    simp only [osetInit]
    by_cases hk : k0 = k
    · subst hk
      simp only [beq_self_eq_true, if_true]
      rw [lookup_cons_miss (by simp [h]), lookup_cons_miss (by simp [h])]
    · rw [if_neg (by simpa using hk)]
      by_cases ht : k' = k0
      · subst ht
        rw [lookup_cons_hit (by simp), lookup_cons_hit (by simp)]
      · rw [lookup_cons_miss (by simp [ht]), lookup_cons_miss (by simp [ht])]
        exact ih

theorem initRows_lookup_mem {states : List State} {sid : Nat} {row} :
    (initRows states).lookup sid = some row → row = [] := by
  unfold initRows
  suffices h : ∀ (m : List (Nat × List (String × String))),
      (∀ k r, m.lookup k = some r → r = []) →
      ∀ k r, (states.foldl (fun a st => osetInit a st.id) m).lookup k = some r → r = [] by
    intro hl
    exact h [] (by intro k r hr; simp at hr) sid row hl
  intro m hm
  induction states generalizing m with
  | nil => exact hm
  | cons st rest ih =>
    simp only [List.foldl_cons]
    refine ih _ ?_
    intro k r hkr
    by_cases hk : k = st.id
    · subst hk
      rw [osetInit_lookup_self] at hkr
      simpa using hkr.symm
    · rw [osetInit_lookup_other _ _ _ hk] at hkr
      exact hm k r hkr

theorem lookup2_initRows (states : List State) (sid : Nat) (t : String) :
    lookup2 (initRows states) sid t = none := by
  unfold lookup2
  cases hrow : (initRows states).lookup sid with
  | none => rfl
  | some row =>
    rw [initRows_lookup_mem hrow]
    simp

/-! ## Facts about action strings -/

theorem s_str_startsWith (x : String) : jsStartsWith ("s" ++ x) "s" = true := by
  show List.isPrefixOf ['s'] ('s' :: x.data) = true
  simp [List.isPrefixOf]

theorem r_str_not_startsWith_s (x : String) : jsStartsWith ("r" ++ x) "s" = false := by
  show List.isPrefixOf ['s'] ('r' :: x.data) = false
  simp [List.isPrefixOf]

theorem s_str_ne_empty (x : String) : ("s" ++ x) ≠ "" := by
  intro h
  have h1 : ("s" ++ x).data.head? = some 's' := rfl
  rw [h] at h1
  exact absurd h1 (by decide)

theorem s_str_ne_acc (x : String) : ("s" ++ x) ≠ "acc" := by
  intro h
  have h1 : ("s" ++ x).data.head? = some 's' := rfl
  rw [h] at h1
  exact absurd h1 (by decide)

theorem r_str_ne_acc (x : String) : ("r" ++ x) ≠ "acc" := by
  intro h
  have h1 : ("r" ++ x).data.head? = some 'r' := rfl
  rw [h] at h1
  exact absurd h1 (by decide)

/-! ## Row-presence lemmas -/

theorem osetUpd_present {m : List (Nat × List (String × String))} {k' : Nat}
    (h : (m.lookup k').isSome) (k : Nat) (t v : String) :
    ((osetUpd m k t v).lookup k').isSome := by
  by_cases hk : k' = k
  · subst hk
    obtain ⟨row, hrow⟩ := Option.isSome_iff_exists.mp h
    rw [osetUpd_lookup_self hrow]
    rfl
  · rw [osetUpd_lookup_other _ _ _ _ _ hk]
    exact h

theorem initRows_present {states : List State} {st : State} (h : st ∈ states) :
    ((initRows states).lookup st.id).isSome := by
  unfold initRows
  suffices haux : ∀ (states : List State) (m : List (Nat × List (String × String))) (k : Nat),
      ((m.lookup k).isSome ∨ ∃ st ∈ states, st.id = k) →
      (((states.foldl (fun a st => osetInit a st.id) m).lookup k).isSome) by
    exact haux states [] st.id (.inr ⟨st, h, rfl⟩)
  intro states
  induction states with
  | nil =>
    intro m k h
    rcases h with h | ⟨st, hst, _⟩
    · exact h
    · exact absurd hst (List.not_mem_nil _)
  | cons s rest ih =>
    intro m k h
    simp only [List.foldl_cons]
    refine ih _ k ?_
    by_cases hk : k = s.id
    · subst hk
      left
      rw [osetInit_lookup_self]
      rfl
    · rcases h with h | ⟨st, hst, hid⟩
      · left
        rw [osetInit_lookup_other _ _ _ hk]
        exact h
      · rcases List.mem_cons.mp hst with rfl | hst'
        · exact absurd hid.symm (by simpa using hk)
        · exact .inr ⟨st, hst', hid⟩

theorem shiftGotoPhase_present {edges : List Edge} {g : Grammar} {ag} {k : Nat}
    (h : ((ag.1.lookup k).isSome : Prop)) :
    (((shiftGotoPhase edges g ag).1.lookup k).isSome : Prop) := by
  induction edges generalizing ag with
  | nil => exact h
  | cons e rest ih =>
    unfold shiftGotoPhase at ih ⊢
    simp only [List.foldl_cons]
    apply ih
    split
    · exact osetUpd_present h _ _ _
    · split
      · exact h
      · exact h

/-! ## Shift-phase characterization -/

theorem shiftPhase_lookup {edges : List Edge} {g : Grammar} {ag} {sid : Nat}
    {t v : String} :
    lookup2 (shiftGotoPhase edges g ag).1 sid t = some v →
    lookup2 ag.1 sid t = some v ∨
    ∃ e ∈ edges, e.source = sid ∧ e.label = t ∧ v = "s" ++ Nat.repr e.target := by
  induction edges generalizing ag with
  | nil => exact fun h => .inl h
  | cons e rest ih =>
    intro h
    unfold shiftGotoPhase at h
    simp only [List.foldl_cons] at h
    rcases ih h with h1 | ⟨e', he', hsrc, hlab, hv⟩
    · -- analyse the single-edge step
      split at h1
      · rcases lookup2_osetUpd_cases h1 with ⟨hsid, ht, hv⟩ | h2
        · exact .inr ⟨e, List.mem_cons_self _ _, hsid.symm, ht.symm, hv⟩
        · exact .inl h2
      · split at h1
        · exact .inl h1
        · exact .inl h1
    · exact .inr ⟨e', List.mem_cons_of_mem _ he', hsrc, hlab, hv⟩

/-- Every value the shift phase leaves in the action table (starting from
the empty rows) is a shift string. -/
theorem shiftPhase_value_shape {edges : List Edge} {g : Grammar} {states : List State}
    {sid : Nat} {t v : String}
    (h : lookup2 (shiftGotoPhase edges g (initRows states, initRows states)).1 sid t
      = some v) :
    ∃ k, v = "s" ++ Nat.repr k := by
  rcases shiftPhase_lookup h with h1 | ⟨e, _, _, _, hv⟩
  · rw [lookup2_initRows] at h1
    exact absurd h1 (by simp)
  · exact ⟨e.target, hv⟩

/-! ## Reduce/accept-phase lemmas -/

/-- The inner lookahead loop of a reduce item writes only `r…` strings and
never overwrites a non-empty `s…` cell. -/
theorem reduceLas_preserves {stid : Nat} {pid : Nat} {las : List String}
    {a : List (Nat × List (String × String))} {sid : Nat} {t v : String}
    (hv : lookup2 a sid t = some v) (hs : jsStartsWith v "s" = true) (hne : v ≠ "") :
    lookup2 (las.foldl (fun a lookahead =>
      match lookup2 a stid lookahead with
      | none => osetUpd a stid lookahead ("r" ++ Nat.repr pid)
      | some w =>
        if w = "" ∨ jsStartsWith w "s" = false then
          osetUpd a stid lookahead ("r" ++ Nat.repr pid)
        else a) a) sid t = some v := by
  induction las generalizing a with
  | nil => exact hv
  | cons la rest ih =>
    simp only [List.foldl_cons]
    apply ih
    by_cases hcell : stid = sid ∧ la = t
    · obtain ⟨rfl, rfl⟩ := hcell
      simp only [hv]
      rw [if_neg (by
        rintro (h | h)
        · exact hne h
        · rw [hs] at h; exact absurd h (by decide))]
      exact hv
    · have hor : sid ≠ stid ∨ t ≠ la := by
        by_cases h1 : stid = sid
        · exact .inr (fun ht => hcell ⟨h1, ht.symm⟩)
        · exact .inl (fun hh => h1 hh.symm)
      cases hlook : lookup2 a stid la with
      | none =>
        simp only [hlook]
        rw [lookup2_osetUpd_other hor]
        exact hv
      | some w =>
        simp only [hlook]
        split
        · rw [lookup2_osetUpd_other hor]; exact hv
        · exact hv

/-- `reduceAccState` never overwrites a non-empty `s…` cell at a
non-`$` column. -/
theorem reduceAccState_preserves {start : String} {st : State}
    {a : List (Nat × List (String × String))} {sid : Nat} {t v : String}
    (ht : t ≠ "$") (hv : lookup2 a sid t = some v)
    (hs : jsStartsWith v "s" = true) (hne : v ≠ "") :
    lookup2 (reduceAccState start st a) sid t = some v := by
  unfold reduceAccState
  induction st.items generalizing a with
  | nil => exact hv
  | cons item rest ih =>
    simp only [List.foldl_cons]
    apply ih
    split
    · split
      · rw [lookup2_osetUpd_other (Or.inr ht)]
        exact hv
      · exact reduceLas_preserves hv hs hne
    · exact hv

theorem reduceAccPhase_preserves {states : List State} {start : String}
    {a : List (Nat × List (String × String))} {sid : Nat} {t v : String}
    (ht : t ≠ "$") (hv : lookup2 a sid t = some v)
    (hs : jsStartsWith v "s" = true) (hne : v ≠ "") :
    lookup2 (reduceAccPhase states start a) sid t = some v := by
  unfold reduceAccPhase
  induction states generalizing a with
  | nil => exact hv
  | cons st rest ih =>
    simp only [List.foldl_cons]
    exact ih (reduceAccState_preserves ht hv hs hne)

/-! ## Accept-cell characterization -/

theorem reduceLas_lookup_acc {stid pid : Nat} {las : List String}
    {a : List (Nat × List (String × String))} {sid : Nat} {t : String}
    (h : lookup2 (las.foldl (fun a lookahead =>
      match lookup2 a stid lookahead with
      | none => osetUpd a stid lookahead ("r" ++ Nat.repr pid)
      | some w =>
        if w = "" ∨ jsStartsWith w "s" = false then
          osetUpd a stid lookahead ("r" ++ Nat.repr pid)
        else a) a) sid t = some "acc") :
    lookup2 a sid t = some "acc" := by
  induction las generalizing a with
  | nil => exact h
  | cons la rest ih =>
    simp only [List.foldl_cons] at h
    have h1 := ih h
    cases hlook : lookup2 a stid la with
    | none =>
      simp only [hlook] at h1
      rcases lookup2_osetUpd_cases h1 with ⟨_, _, hacc⟩ | h2
      · exact absurd hacc.symm (r_str_ne_acc _)
      · exact h2
    | some w =>
      simp only [hlook] at h1
      split at h1
      · rcases lookup2_osetUpd_cases h1 with ⟨_, _, hacc⟩ | h2
        · exact absurd hacc.symm (r_str_ne_acc _)
        · exact h2
      · exact h1

/-- The predicate "this item makes `generateParsingTable` write `acc`". -/
def accItem (start : String) (item : Item) : Prop :=
  item.dotPosition = item.production.rhs.length ∧
  item.production.lhs = start ∧ "$" ∈ item.lookahead

theorem reduceAccState_lookup_acc {start : String} {st : State}
    {a : List (Nat × List (String × String))} {sid : Nat} {t : String}
    (h : lookup2 (reduceAccState start st a) sid t = some "acc") :
    lookup2 a sid t = some "acc" ∨
    (t = "$" ∧ st.id = sid ∧ ∃ item ∈ st.items, accItem start item) := by
  unfold reduceAccState at h
  suffices haux : ∀ (items : List Item) (a : List (Nat × List (String × String))),
      lookup2 (items.foldl (fun a item =>
        if item.dotPosition = item.production.rhs.length then
          if item.production.lhs == start && item.lookahead.contains "$" then
            osetUpd a st.id "$" "acc"
          else
            item.lookahead.foldl (fun a lookahead =>
              match lookup2 a st.id lookahead with
              | none => osetUpd a st.id lookahead ("r" ++ Nat.repr item.production.id)
              | some v =>
                if v = "" ∨ jsStartsWith v "s" = false then
                  osetUpd a st.id lookahead ("r" ++ Nat.repr item.production.id)
                else a) a
        else a) a) sid t = some "acc" →
      lookup2 a sid t = some "acc" ∨
      (t = "$" ∧ st.id = sid ∧ ∃ item ∈ items, accItem start item) by
    rcases haux st.items a h with h1 | ⟨ht, hid, item, hmem, hacc⟩
    · exact .inl h1
    · exact .inr ⟨ht, hid, item, hmem, hacc⟩
  intro items
  induction items with
  | nil => intro a h; exact .inl h
  | cons item rest ih =>
    intro a h
    simp only [List.foldl_cons] at h
    rcases ih _ h with h1 | ⟨ht, hid, it, hmem, hacc⟩
    · -- analyse the single item step
      split at h1
      · rename_i hcomplete
        split at h1
        · rename_i hcond
          rcases lookup2_osetUpd_cases h1 with ⟨hsid, ht, _⟩ | h2
          · simp only [Bool.and_eq_true, beq_iff_eq] at hcond
            refine .inr ⟨ht, hsid.symm, item, List.mem_cons_self _ _,
              hcomplete, hcond.1, ?_⟩
            simpa [List.contains, List.elem_iff] using hcond.2
          · exact .inl h2
        · exact .inl (reduceLas_lookup_acc h1)
      · exact .inl h1
    · exact .inr ⟨ht, hid, it, List.mem_cons_of_mem _ hmem, hacc⟩

theorem reduceAccPhase_lookup_acc {states : List State} {start : String}
    {a : List (Nat × List (String × String))} {sid : Nat} {t : String}
    (h : lookup2 (reduceAccPhase states start a) sid t = some "acc") :
    lookup2 a sid t = some "acc" ∨
    (t = "$" ∧ ∃ st ∈ states, st.id = sid ∧ ∃ item ∈ st.items, accItem start item) := by
  unfold reduceAccPhase at h
  induction states generalizing a with
  | nil => exact .inl h
  | cons st rest ih =>
    simp only [List.foldl_cons] at h
    rcases ih h with h1 | ⟨ht, st', hmem, hrest⟩
    · rcases reduceAccState_lookup_acc h1 with h2 | ⟨ht, hid, hitem⟩
      · exact .inl h2
      · exact .inr ⟨ht, st, List.mem_cons_self _ _, hid, hitem⟩
    · exact .inr ⟨ht, st', List.mem_cons_of_mem _ hmem, hrest⟩

/-! ## Accept-cell persistence -/

theorem reduceLas_ne_dollar_preserves {stid pid : Nat} {las : List String}
    {a : List (Nat × List (String × String))} {sid : Nat}
    (hlas : ∀ la ∈ las, la ≠ "$") :
    lookup2 (las.foldl (fun a lookahead =>
      match lookup2 a stid lookahead with
      | none => osetUpd a stid lookahead ("r" ++ Nat.repr pid)
      | some w =>
        if w = "" ∨ jsStartsWith w "s" = false then
          osetUpd a stid lookahead ("r" ++ Nat.repr pid)
        else a) a) sid "$" = lookup2 a sid "$" := by
  induction las generalizing a with
  | nil => rfl
  | cons la rest ih =>
    simp only [List.foldl_cons]
    rw [ih (fun l hl => hlas l (List.mem_cons_of_mem _ hl))]
    have hne : ("$" : String) ≠ la := fun hh => hlas la (List.mem_cons_self _ _) hh.symm
    cases hlook : lookup2 a stid la with
    | none =>
      simp only [hlook]
      rw [lookup2_osetUpd_other (Or.inr hne)]
    | some w =>
      simp only [hlook]
      split
      · rw [lookup2_osetUpd_other (Or.inr hne)]
      · rfl

theorem reduceLas_present {stid pid : Nat} {las : List String}
    {a : List (Nat × List (String × String))} {k : Nat}
    (h : (a.lookup k).isSome) :
    ((las.foldl (fun a lookahead =>
      match lookup2 a stid lookahead with
      | none => osetUpd a stid lookahead ("r" ++ Nat.repr pid)
      | some w =>
        if w = "" ∨ jsStartsWith w "s" = false then
          osetUpd a stid lookahead ("r" ++ Nat.repr pid)
        else a) a).lookup k).isSome := by
  induction las generalizing a with
  | nil => exact h
  | cons la rest ih =>
    simp only [List.foldl_cons]
    apply ih
    cases hlook : lookup2 a stid la with
    | none => simp only [hlook]; exact osetUpd_present h _ _ _
    | some w =>
      simp only [hlook]
      split
      · exact osetUpd_present h _ _ _
      · exact h

/-- Processing the items of a state whose complete `$`-lookahead items all
belong to the augmented start symbol leaves `acc` in the `$` cell as soon
as an accepting item has been processed. -/
theorem itemsFold_sets_acc {start : String} {stid : Nat} :
    ∀ (items : List Item) (a : List (Nat × List (String × String))),
      (∀ item ∈ items, item.dotPosition = item.production.rhs.length →
        "$" ∈ item.lookahead → item.production.lhs = start) →
      (a.lookup stid).isSome →
      ((∃ item ∈ items, accItem start item) ∨ lookup2 a stid "$" = some "acc") →
      lookup2 (items.foldl (fun a item =>
        if item.dotPosition = item.production.rhs.length then
          if item.production.lhs == start && item.lookahead.contains "$" then
            osetUpd a stid "$" "acc"
          else
            item.lookahead.foldl (fun a lookahead =>
              match lookup2 a stid lookahead with
              | none => osetUpd a stid lookahead ("r" ++ Nat.repr item.production.id)
              | some v =>
                if v = "" ∨ jsStartsWith v "s" = false then
                  osetUpd a stid lookahead ("r" ++ Nat.repr item.production.id)
                else a) a
        else a) a) stid "$" = some "acc" := by
  intro items
  induction items with
  | nil =>
    intro a _ _ hdisj
    rcases hdisj with ⟨item, hmem, _⟩ | hacc
    · exact absurd hmem (List.not_mem_nil _)
    · exact hacc
  | cons item rest ih =>
    intro a hsafe hpres hdisj
    simp only [List.foldl_cons]
    by_cases hcomplete : item.dotPosition = item.production.rhs.length
    · by_cases hcond : (item.production.lhs == start && item.lookahead.contains "$") = true
      · -- the accept write happens here and persists
        rw [if_pos hcomplete, if_pos hcond]
        refine ih _ (fun it hm => hsafe it (List.mem_cons_of_mem _ hm))
          (osetUpd_present hpres _ _ _) (.inr (lookup2_osetUpd_self hpres _ _))
      · -- a complete non-accepting item: its lookaheads exclude `$`
        rw [if_pos hcomplete, if_neg hcond]
        have hlas : ∀ la ∈ item.lookahead, la ≠ "$" := by
          intro la hla hladollar
          subst hladollar
          have hlhs := hsafe item (List.mem_cons_self _ _) hcomplete hla
          exact hcond (by
            simp only [Bool.and_eq_true, beq_iff_eq]
            exact ⟨hlhs, by simpa [List.contains, List.elem_iff] using hla⟩)
        refine ih _ (fun it hm => hsafe it (List.mem_cons_of_mem _ hm))
          (reduceLas_present hpres) ?_
        rcases hdisj with ⟨it, hm, hit⟩ | hacc
        · rcases List.mem_cons.mp hm with rfl | hm'
          · -- this item would have to be accepting, contradiction
            exact absurd (by
              simp only [Bool.and_eq_true, beq_iff_eq]
              exact ⟨hit.2.1, by simpa [List.contains, List.elem_iff] using hit.2.2⟩) hcond
          · exact .inl ⟨it, hm', hit⟩
        · exact .inr (by rw [reduceLas_ne_dollar_preserves hlas]; exact hacc)
    · rw [if_neg hcomplete]
      refine ih _ (fun it hm => hsafe it (List.mem_cons_of_mem _ hm)) hpres ?_
      rcases hdisj with ⟨it, hm, hit⟩ | hacc
      · rcases List.mem_cons.mp hm with rfl | hm'
        · exact absurd hit.1 hcomplete
        · exact .inl ⟨it, hm', hit⟩
      · exact .inr hacc

theorem reduceAccState_sets_acc {start : String} {st : State}
    {a : List (Nat × List (String × String))}
    (hpres : (a.lookup st.id).isSome)
    (hacc : ∃ item ∈ st.items, accItem start item)
    (hsafe : ∀ item ∈ st.items, item.dotPosition = item.production.rhs.length →
      "$" ∈ item.lookahead → item.production.lhs = start) :
    lookup2 (reduceAccState start st a) st.id "$" = some "acc" := by
  unfold reduceAccState
  exact itemsFold_sets_acc st.items a hsafe hpres (.inl hacc)

theorem reduceAccState_other_id {start : String} {s' : State}
    {a : List (Nat × List (String × String))} {sid : Nat} {t : String}
    (h : sid ≠ s'.id) :
    lookup2 (reduceAccState start s' a) sid t = lookup2 a sid t := by
  unfold reduceAccState
  induction s'.items generalizing a with
  | nil => rfl
  | cons item rest ih =>
    simp only [List.foldl_cons]
    rw [ih]
    split
    · split
      · rw [lookup2_osetUpd_other (Or.inl h)]
      · -- the lookahead fold writes only at row s'.id
        clear ih
        induction item.lookahead generalizing a with
        | nil => rfl
        | cons la las ihl =>
          simp only [List.foldl_cons]
          rw [ihl]
          cases hlook : lookup2 a s'.id la with
          | none =>
            simp only [hlook]
            rw [lookup2_osetUpd_other (Or.inl h)]
          | some w =>
            simp only [hlook]
            split
            · rw [lookup2_osetUpd_other (Or.inl h)]
            · rfl
    · rfl

theorem reduceAccState_present {start : String} {s' : State}
    {a : List (Nat × List (String × String))} {k : Nat}
    (h : (a.lookup k).isSome) :
    ((reduceAccState start s' a).lookup k).isSome := by
  unfold reduceAccState
  induction s'.items generalizing a with
  | nil => exact h
  | cons item rest ih =>
    simp only [List.foldl_cons]
    apply ih
    split
    · split
      · exact osetUpd_present h _ _ _
      · exact reduceLas_present h
    · exact h

theorem reduceAccFold_other_ids {start : String} {rest : List State}
    {a : List (Nat × List (String × String))} {sid : Nat} {t : String}
    (h : ∀ s' ∈ rest, sid ≠ s'.id) :
    lookup2 (rest.foldl (fun a s => reduceAccState start s a) a) sid t =
      lookup2 a sid t := by
  induction rest generalizing a with
  | nil => rfl
  | cons s2 rest2 ih =>
    simp only [List.foldl_cons]
    rw [ih (fun s' hs' => h s' (List.mem_cons_of_mem _ hs'))]
    exact reduceAccState_other_id (h s2 (List.mem_cons_self _ _))

/-- When a state of a duplicate-free state list contains an accepting item
and no other complete item with `$` lookahead, the reduce/accept phase
leaves `acc` in that state's `$` cell. -/
theorem reduceAccPhase_sets_acc {states : List State} {start : String}
    {a : List (Nat × List (String × String))} {st : State}
    (hnodup : (states.map State.id).Nodup) (hmem : st ∈ states)
    (hpres : (a.lookup st.id).isSome)
    (hacc : ∃ item ∈ st.items, accItem start item)
    (hsafe : ∀ item ∈ st.items, item.dotPosition = item.production.rhs.length →
      "$" ∈ item.lookahead → item.production.lhs = start) :
    lookup2 (reduceAccPhase states start a) st.id "$" = some "acc" := by
  unfold reduceAccPhase
  induction states generalizing a with
  | nil => exact absurd hmem (List.not_mem_nil _)
  | cons s rest ih =>
    simp only [List.foldl_cons]
    rcases List.mem_cons.mp hmem with rfl | hmem'
    · have hids : ∀ s' ∈ rest, st.id ≠ s'.id := by
        intro s' hs' heq
        simp only [List.map_cons, List.nodup_cons] at hnodup
        exact hnodup.1 (heq ▸ List.mem_map_of_mem State.id hs')
      rw [reduceAccFold_other_ids hids]
      exact reduceAccState_sets_acc hpres hacc hsafe
    · simp only [List.map_cons, List.nodup_cons] at hnodup
      exact ih hnodup.2 hmem' (reduceAccState_present hpres)

/-! ## Membership lemmas for FIRST sets and closures -/

theorem mem_setAdd {l : List String} {s x : String} (h : x ∈ setAdd l s) :
    x ∈ l ∨ x = s := by
  unfold setAdd at h
  split at h
  · exact .inl h
  · rcases List.mem_append.mp h with h | h
    · exact .inl h
    · exact .inr (List.mem_singleton.mp h)

theorem mem_foldl_setAdd : ∀ {adds init : List String} {x : String},
    x ∈ adds.foldl setAdd init → x ∈ init ∨ x ∈ adds := by
  intro adds
  induction adds with
  | nil => intro init x h; exact .inl h
  | cons a rest ih =>
    intro init x h
    simp only [List.foldl_cons] at h
    rcases ih h with h1 | h1
    · rcases mem_setAdd h1 with h2 | h2
      · exact .inl h2
      · exact .inr (h2 ▸ List.mem_cons_self _ _)
    · exact .inr (List.mem_cons_of_mem _ h1)

theorem optBind_some {α β : Type} (a : α) (f : α → Option β) :
    (some a >>= f) = f a := rfl

theorem foldlM_option_inv {α β : Type} (P : β → Prop) (f : β → α → Option β) :
    ∀ (l : List α) (b : β), P b →
      (∀ b a b', a ∈ l → P b → f b a = some b' → P b') →
      ∀ b', l.foldlM f b = some b' → P b' := by
  intro l
  induction l with
  | nil =>
    intro b hb _ b' h
    simp only [List.foldlM_nil] at h
    exact ((Option.some.injEq _ _).mp h) ▸ hb
  | cons a as ih =>
    intro b hb hf b' h
    simp only [List.foldlM_cons] at h
    cases hfa : f b a with
    | none => rw [hfa] at h; exact absurd h (by simp)
    | some b1 =>
      rw [hfa] at h
      simp only [optBind_some] at h
      exact ih b1 (hf b a b1 (List.mem_cons_self _ _) hb hfa)
        (fun b a' b' ha' => hf b a' b' (List.mem_cons_of_mem _ ha')) b' h

/-- Every element a terminating `computeFirst` returns is a terminal of
the grammar or the epsilon marker. -/
theorem computeFirstF_sound : ∀ (fuel : Nat) (g : Grammar) (syms res : List String),
    computeFirstF fuel g syms = some res → ∀ x ∈ res, x ∈ g.terminals ∨ x = "ε" := by
  intro fuel
  induction fuel with
  | zero =>
    intro g syms res h
    exact Option.noConfusion h
  | succ fuel ih =>
    intro g syms res h x hx
    cases syms with
    | nil =>
      simp only [computeFirstF] at h
      have : res = ["ε"] := by simpa using h.symm
      subst this
      exact .inr (List.mem_singleton.mp hx)
    | cons s rest =>
      simp only [computeFirstF] at h
      split at h
      · rename_i hterm
        have : res = [s] := by simpa using h.symm
        subst this
        refine .inl ?_
        rw [List.mem_singleton.mp hx]
        simpa [List.contains, List.elem_iff] using hterm
      · refine foldlM_option_inv (fun first => ∀ x ∈ first, x ∈ g.terminals ∨ x = "ε")
          _ _ _ (by intro x hx; exact absurd hx (List.not_mem_nil _)) ?_ res h x hx
        intro first p first' _ hfirst hstep
        split at hstep
        · split at hstep
          · split at hstep
            · -- epsilon production, no rest
              have : first' = setAdd first "ε" := by simpa using hstep.symm
              subst this
              intro y hy
              rcases mem_setAdd hy with h1 | h1
              · exact hfirst y h1
              · exact .inr h1
            · -- epsilon production with rest
              cases hrf : computeFirstF fuel g rest with
              | none => rw [hrf] at hstep; exact absurd hstep (by simp)
              | some restFirst =>
                rw [hrf] at hstep
                simp only [optBind_some] at hstep
                have : first' = restFirst.foldl setAdd (setAdd first "ε") := by
                  simpa using hstep.symm
                subst this
                intro y hy
                rcases mem_foldl_setAdd hy with h1 | h1
                · rcases mem_setAdd h1 with h2 | h2
                  · exact hfirst y h2
                  · exact .inr h2
                · exact ih g rest restFirst hrf y h1
          · -- non-epsilon production
            cases hrf : computeFirstF fuel g p.rhs with
            | none => rw [hrf] at hstep; exact absurd hstep (by simp)
            | some rhsFirst =>
              rw [hrf] at hstep
              simp only [optBind_some] at hstep
              have hfirst1 : ∀ y ∈ (rhsFirst.filter (fun s => s ≠ "ε")).foldl setAdd first,
                  y ∈ g.terminals ∨ y = "ε" := by
                intro y hy
                rcases mem_foldl_setAdd hy with h1 | h1
                · exact hfirst y h1
                · exact ih g p.rhs rhsFirst hrf y (List.mem_of_mem_filter h1)
              split at hstep
              · cases hrf2 : computeFirstF fuel g rest with
                | none => rw [hrf2] at hstep; exact absurd hstep (by simp)
                | some restFirst =>
                  rw [hrf2] at hstep
                  simp only [optBind_some] at hstep
                  have : first' = restFirst.foldl setAdd
                      ((rhsFirst.filter (fun s => s ≠ "ε")).foldl setAdd first) := by
                    simpa using hstep.symm
                  subst this
                  intro y hy
                  rcases mem_foldl_setAdd hy with h1 | h1
                  · exact hfirst1 y h1
                  · exact ih g rest restFirst hrf2 y h1
              · have : first' = (rhsFirst.filter (fun s => s ≠ "ε")).foldl setAdd first := by
                  simpa using hstep.symm
                subst this
                exact hfirst1
        · have : first' = first := by simpa using hstep.symm
          subst this
          exact hfirst

/-- Characterization of the items added by the closure inner loops. -/
theorem addItemsForLa_mem {p : Production} :
    ∀ {las : List String} {result : List Item} {changed : Bool} {it : Item},
      it ∈ (addItemsForLa p las result changed).1 →
      it ∈ result ∨ ∃ la ∈ las, it = ⟨p, 0, [la]⟩ := by
  intro las
  induction las with
  | nil => intro result changed it h; exact .inl h
  | cons la rest ih =>
    intro result changed it h
    simp only [addItemsForLa] at h
    split at h
    · rcases ih h with h1 | ⟨la', hla', heq⟩
      · exact .inl h1
      · exact .inr ⟨la', List.mem_cons_of_mem _ hla', heq⟩
    · rcases ih h with h1 | ⟨la', hla', heq⟩
      · rcases List.mem_append.mp h1 with h2 | h2
        · exact .inl h2
        · exact .inr ⟨la, List.mem_cons_self _ _, List.mem_singleton.mp h2⟩
      · exact .inr ⟨la', List.mem_cons_of_mem _ hla', heq⟩

theorem addClosureItems_mem {prods : List Production} {sym : String} {fs : List String} :
    ∀ {result : List Item} {changed : Bool} {it : Item},
      it ∈ (addClosureItems prods sym fs result changed).1 →
      it ∈ result ∨ ∃ p ∈ prods, ∃ la ∈ fs, it = ⟨p, 0, [la]⟩ := by
  unfold addClosureItems
  suffices haux : ∀ (l : List Production) (rc : List Item × Bool) (it : Item),
      it ∈ (l.foldl (fun rc p => if p.lhs == sym then addItemsForLa p fs rc.1 rc.2 else rc)
        rc).1 →
      it ∈ rc.1 ∨ ∃ p ∈ l, ∃ la ∈ fs, it = ⟨p, 0, [la]⟩ by
    intro result changed it h
    exact haux prods (result, changed) it h
  intro l
  induction l with
  | nil => intro rc it h; exact .inl h
  | cons p rest ih =>
    intro rc it h
    simp only [List.foldl_cons] at h
    rcases ih _ it h with h1 | ⟨p', hp', hrest⟩
    · split at h1
      · rcases addItemsForLa_mem h1 with h2 | ⟨la, hla, heq⟩
        · exact .inl h2
        · exact .inr ⟨p, List.mem_cons_self _ _, la, hla, heq⟩
      · exact .inl h1
    · exact .inr ⟨p', List.mem_cons_of_mem _ hp', hrest⟩

/-- Items present after a closure scan: either original or freshly built
from a production of the grammar with a single terminal lookahead. -/
theorem closScan_mem : ∀ (sf cfF : Nat) (g : Grammar) (result : List Item) (i : Nat)
    (ch : Bool) (out : List Item) (ch' : Bool),
    closScan sf cfF g result i ch = some (out, ch') →
    ∀ it ∈ out, it ∈ result ∨
      ∃ p ∈ g.productions, ∃ la, la ∈ g.terminals ∧ it = ⟨p, 0, [la]⟩ := by
  intro sf
  induction sf with
  | zero =>
    intro cfF g result i ch out ch' h
    exact Option.noConfusion h
  | succ sf ih =>
    intro cfF g result i ch out ch' h it hit
    simp only [closScan] at h
    split at h
    · split at h
      · split at h
        · -- nonterminal after the dot
          rename_i hlt hdot hnt
          cases hcf : computeFirstF cfF g
              ((result.get ⟨i, hlt⟩).production.rhs.drop
                ((result.get ⟨i, hlt⟩).dotPosition + 1) ++
                (result.get ⟨i, hlt⟩).lookahead) with
          | none => rw [hcf] at h; exact absurd h (by simp)
          | some fs0 =>
            rw [hcf] at h
            rcases ih _ _ _ _ _ _ _ h it hit with h1 | h1
            · rcases addClosureItems_mem h1 with h2 | ⟨p, hp, la, hla, heq⟩
              · exact .inl h2
              · refine .inr ⟨p, hp, la, ?_, heq⟩
                have hla' := List.mem_of_mem_filter hla
                have hne : la ≠ "ε" := by
                  have := List.of_mem_filter hla
                  simpa using this
                rcases computeFirstF_sound _ _ _ _ hcf la hla' with h3 | h3
                · exact h3
                · exact absurd h3 hne
            · exact .inr h1
        · exact ih _ _ _ _ _ _ _ h it hit
      · exact ih _ _ _ _ _ _ _ h it hit
    · have : out = result := by
        have := (Option.some.injEq _ _).mp h
        exact (congrArg Prod.fst this).symm
      exact .inl (this ▸ hit)

theorem closRun_mem : ∀ (pf fuel : Nat) (g : Grammar) (items out : List Item),
    closRun pf fuel g items = some out →
    ∀ it ∈ out, it ∈ items ∨
      ∃ p ∈ g.productions, ∃ la, la ∈ g.terminals ∧ it = ⟨p, 0, [la]⟩ := by
  intro pf
  induction pf with
  | zero =>
    intro fuel g items out h
    exact Option.noConfusion h
  | succ pf ih =>
    intro fuel g items out h it hit
    simp only [closRun] at h
    cases hscan : closScan fuel fuel g items 0 false with
    | none => rw [hscan] at h; exact absurd h (by simp)
    | some rc =>
      obtain ⟨result', changed⟩ := rc
      rw [hscan] at h
      simp only at h
      split at h
      · rcases ih _ _ _ _ h it hit with h1 | h1
        · rcases closScan_mem _ _ _ _ _ _ _ _ hscan it h1 with h2 | h2
          · exact .inl h2
          · exact .inr h2
        · exact .inr h1
      · have : out = result' := by simpa using h.symm
        subst this
        rcases closScan_mem _ _ _ _ _ _ _ _ hscan it hit with h1 | h1
        · exact .inl h1
        · exact .inr h1

theorem closureF_mem {fuel : Nat} {g : Grammar} {items out : List Item}
    (h : closureF fuel g items = some out) :
    ∀ it ∈ out, it ∈ items ∨
      ∃ p ∈ g.productions, ∃ la, la ∈ g.terminals ∧ it = ⟨p, 0, [la]⟩ :=
  closRun_mem _ _ _ _ _ h

theorem gotoF_mem {fuel : Nat} {g : Grammar} {items : List Item} {sym : String}
    {out : List Item} (h : gotoF fuel g items sym = some out) :
    ∀ it ∈ out,
      (∃ src ∈ items, it = ⟨src.production, src.dotPosition + 1, src.lookahead⟩) ∨
      ∃ p ∈ g.productions, ∃ la, la ∈ g.terminals ∧ it = ⟨p, 0, [la]⟩ := by
  unfold gotoF at h
  intro it hit
  rcases closureF_mem h it hit with h1 | h1
  · rcases List.mem_filterMap.mp h1 with ⟨src, hsrc, hmap⟩
    left
    refine ⟨src, hsrc, ?_⟩
    split at hmap
    · exact ((Option.some.injEq _ _).mp hmap).symm
    · exact absurd hmap (by simp)
  · exact .inr h1

/-! ## The per-item invariant of the pipeline -/

/-- Items the pipeline manipulates: the production is one of the
grammar's and the lookahead is a single terminal. -/
def itemOK (g : Grammar) (it : Item) : Prop :=
  it.production ∈ g.productions ∧ ∃ l, it.lookahead = [l] ∧ l ∈ g.terminals

theorem closureF_itemOK {fuel : Nat} {g : Grammar} {items out : List Item}
    (hitems : ∀ it ∈ items, itemOK g it) (h : closureF fuel g items = some out) :
    ∀ it ∈ out, itemOK g it := by
  intro it hit
  rcases closureF_mem h it hit with h1 | ⟨p, hp, la, hla, heq⟩
  · exact hitems it h1
  · subst heq
    exact ⟨hp, la, rfl, hla⟩

theorem gotoF_itemOK {fuel : Nat} {g : Grammar} {items : List Item} {sym : String}
    {out : List Item} (hitems : ∀ it ∈ items, itemOK g it)
    (h : gotoF fuel g items sym = some out) :
    ∀ it ∈ out, itemOK g it := by
  intro it hit
  rcases gotoF_mem h it hit with ⟨src, hsrc, heq⟩ | ⟨p, hp, la, hla, heq⟩
  · subst heq
    obtain ⟨hprod, l, hl, hlt⟩ := hitems src hsrc
    exact ⟨hprod, l, hl, hlt⟩
  · subst heq
    exact ⟨hp, la, rfl, hla⟩

theorem processSymbols_itemOK {fuel : Nat} {g : Grammar} {curItems : List Item} :
    ∀ {syms : List String} {states : List State} {stateMap : List (String × Nat)}
      {out : List State} {outMap : List (String × Nat)},
      (∀ st ∈ states, ∀ it ∈ st.items, itemOK g it) →
      (∀ it ∈ curItems, itemOK g it) →
      processSymbols fuel g curItems syms states stateMap = some (out, outMap) →
      ∀ st ∈ out, ∀ it ∈ st.items, itemOK g it := by
  intro syms
  induction syms with
  | nil =>
    intro states stateMap out outMap hstates _ h
    have : states = out := congrArg Prod.fst ((Option.some.injEq _ _).mp h)
    exact this ▸ hstates
  | cons sym rest ih =>
    intro states stateMap out outMap hstates hcur h
    simp only [processSymbols] at h
    cases hgoto : gotoF fuel g curItems sym with
    | none => rw [hgoto] at h; exact absurd h (by simp)
    | some gotoItems =>
      rw [hgoto] at h
      simp only at h
      split at h
      · split at h
        · exact ih hstates hcur h
        · refine ih ?_ hcur h
          intro st hst it hit
          rcases List.mem_append.mp hst with h1 | h1
          · exact hstates st h1 it hit
          · have : st = ⟨states.length, gotoItems, kernelFilter curItems sym gotoItems⟩ :=
              List.mem_singleton.mp h1
            subst this
            exact gotoF_itemOK hcur hgoto it hit
      · exact ih hstates hcur h

theorem clrLoop_itemOK {fuel : Nat} {g : Grammar} :
    ∀ (outer : Nat) {states : List State} {stateMap : List (String × Nat)} {i : Nat}
      {out : List State},
      (∀ st ∈ states, ∀ it ∈ st.items, itemOK g it) →
      clrLoop outer fuel g states stateMap i = some out →
      ∀ st ∈ out, ∀ it ∈ st.items, itemOK g it := by
  intro outer
  induction outer with
  | zero =>
    intro states stateMap i out _ h
    exact Option.noConfusion h
  | succ outer ih =>
    intro states stateMap i out hstates h
    simp only [clrLoop] at h
    split at h
    · rename_i hlt
      cases hps : processSymbols fuel g (states.get ⟨i, hlt⟩).items
          (collectSymbols (states.get ⟨i, hlt⟩).items) states stateMap with
      | none => rw [hps] at h; exact absurd h (by simp)
      | some sm =>
        obtain ⟨states', stateMap'⟩ := sm
        rw [hps] at h
        simp only at h
        exact ih (processSymbols_itemOK hstates
          (hstates _ (states.get_mem _ _)) hps) h
    · have : states = out := (Option.some.injEq _ _).mp h
      exact this ▸ hstates

/-- Every item of every state `generateClrItems` builds has a
single-terminal lookahead and a production of the grammar. -/
theorem generateClrItems_itemOK {fuel : Nat} {g : Grammar} {states : List State}
    (hdollar : "$" ∈ g.terminals) (h : generateClrItemsF fuel g = some states) :
    ∀ st ∈ states, ∀ it ∈ st.items, itemOK g it := by
  unfold generateClrItemsF at h
  cases hp0 : g.productions.head? with
  | none => rw [hp0] at h; exact absurd h (by simp)
  | some p0 =>
    simp only [hp0] at h
    cases hclos : closureF fuel g [⟨p0, 0, ["$"]⟩] with
    | none =>
      simp only [hclos] at h
      exact Option.noConfusion h
    | some initialClosure =>
      simp only [hclos] at h
      refine clrLoop_itemOK _ ?_ h
      intro st hst it hit
      have : st = ⟨0, initialClosure, [⟨p0, 0, ["$"]⟩]⟩ := List.mem_singleton.mp hst
      subst this
      refine closureF_itemOK ?_ hclos it hit
      intro it' hit'
      have : it' = ⟨p0, 0, ["$"]⟩ := List.mem_singleton.mp hit'
      subst this
      exact ⟨List.mem_of_mem_head? hp0, "$", rfl, hdollar⟩

/-! ## C10 -/

/-- C10: every state of `generateClrItems` holds only items whose
lookahead is a one-element array containing a terminal of the grammar:
the initial item has lookahead `["$"]` (a terminal after `parseGrammar`
added `$`), `closure` adds items with singleton lookaheads drawn from
FIRST sets (whose elements are terminals once `ε` is filtered out), and
`goto` copies lookaheads unchanged. -/
theorem c10_single_terminal_lookahead (g : Grammar) (fuel : Nat) (states : List State)
    (hdollar : "$" ∈ g.terminals) (h : generateClrItemsF fuel g = some states) :
    ∀ st ∈ states, ∀ it ∈ st.items,
      ∃ l, it.lookahead = [l] ∧ l ∈ g.terminals :=
  fun st hst it hit => (generateClrItems_itemOK hdollar h st hst it hit).2

/-- Concrete pipeline data for the grammar `"S -> A a\nA -> a\nA -> ε"`
(a grammar with a shift/reduce conflict on `a` in state 0). -/
def gB : Grammar :=
  ⟨[⟨"S'", ["S"], 0⟩, ⟨"S", ["A", "a"], 1⟩, ⟨"A", ["a"], 2⟩, ⟨"A", [], 3⟩],
    ["a", "$"], ["S", "A", "S'"], "S'"⟩

def stsB : List State :=
  [⟨0, [⟨⟨"S'", ["S"], 0⟩, 0, ["$"]⟩, ⟨⟨"S", ["A", "a"], 1⟩, 0, ["$"]⟩,
        ⟨⟨"A", ["a"], 2⟩, 0, ["a"]⟩, ⟨⟨"A", [], 3⟩, 0, ["a"]⟩],
      [⟨⟨"S'", ["S"], 0⟩, 0, ["$"]⟩]⟩,
   ⟨1, [⟨⟨"S'", ["S"], 0⟩, 1, ["$"]⟩], [⟨⟨"S'", ["S"], 0⟩, 1, ["$"]⟩]⟩,
   ⟨2, [⟨⟨"S", ["A", "a"], 1⟩, 1, ["$"]⟩], [⟨⟨"S", ["A", "a"], 1⟩, 1, ["$"]⟩]⟩,
   ⟨3, [⟨⟨"A", ["a"], 2⟩, 1, ["a"]⟩], [⟨⟨"A", ["a"], 2⟩, 1, ["a"]⟩]⟩,
   ⟨4, [⟨⟨"S", ["A", "a"], 1⟩, 2, ["$"]⟩], [⟨⟨"S", ["A", "a"], 1⟩, 2, ["$"]⟩]⟩]

def dfaB : Dfa :=
  ⟨[⟨0, "S' -> • S, $\nS -> • A a, $\nA -> • a, a\nA -> •, a"⟩,
    ⟨1, "S' -> S •, $"⟩, ⟨2, "S -> A • a, $"⟩, ⟨3, "A -> a •, a"⟩,
    ⟨4, "S -> A a •, $"⟩],
   [⟨0, 1, "S"⟩, ⟨0, 2, "A"⟩, ⟨0, 3, "a"⟩, ⟨2, 4, "a"⟩]⟩

/-- Witness for `c10_single_terminal_lookahead` on a concrete grammar. -/
theorem c10_witness :
    ("$" ∈ gB.terminals) ∧ generateClrItemsF 20 gB = some stsB ∧
    (∀ st ∈ stsB, ∀ it ∈ st.items, ∃ l, it.lookahead = [l] ∧ l ∈ gB.terminals) :=
  ⟨by decide, rfl, c10_single_terminal_lookahead gB 20 stsB (by decide) rfl⟩

/-! ## C1 -/

instance accItem_decidable (s : String) (it : Item) : Decidable (accItem s it) := by
  unfold accItem
  exact inferInstance

/-- Concrete pipeline data for the grammar `"S -> S A\nS -> a\nA -> ε"`. -/
def gA : Grammar :=
  ⟨[⟨"S'", ["S"], 0⟩, ⟨"S", ["S", "A"], 1⟩, ⟨"S", ["a"], 2⟩, ⟨"A", [], 3⟩],
    ["a", "$"], ["S", "A", "S'"], "S'"⟩

def stsA : List State :=
  [⟨0, [⟨⟨"S'", ["S"], 0⟩, 0, ["$"]⟩, ⟨⟨"S", ["S", "A"], 1⟩, 0, ["$"]⟩,
        ⟨⟨"S", ["a"], 2⟩, 0, ["$"]⟩],
      [⟨⟨"S'", ["S"], 0⟩, 0, ["$"]⟩]⟩,
   ⟨1, [⟨⟨"S'", ["S"], 0⟩, 1, ["$"]⟩, ⟨⟨"S", ["S", "A"], 1⟩, 1, ["$"]⟩,
        ⟨⟨"A", [], 3⟩, 0, ["$"]⟩],
      [⟨⟨"S'", ["S"], 0⟩, 1, ["$"]⟩, ⟨⟨"S", ["S", "A"], 1⟩, 1, ["$"]⟩]⟩,
   ⟨2, [⟨⟨"S", ["a"], 2⟩, 1, ["$"]⟩], [⟨⟨"S", ["a"], 2⟩, 1, ["$"]⟩]⟩,
   ⟨3, [⟨⟨"S", ["S", "A"], 1⟩, 2, ["$"]⟩], [⟨⟨"S", ["S", "A"], 1⟩, 2, ["$"]⟩]⟩]

def dfaA : Dfa :=
  ⟨[⟨0, "S' -> • S, $\nS -> • S A, $\nS -> • a, $"⟩,
    ⟨1, "S' -> S •, $\nS -> S • A, $\nA -> •, $"⟩,
    ⟨2, "S -> a •, $"⟩, ⟨3, "S -> S A •, $"⟩],
   [⟨0, 1, "S"⟩, ⟨0, 2, "a"⟩, ⟨1, 3, "A"⟩]⟩

/-- C1 counterexample: in the pipeline for `"S -> S A\nS -> a\nA -> ε"`,
state 1 contains the complete augmented item `S' -> S •` with lookahead
`$`, yet the final table has `action[1][$] = r3`, not `acc`: the complete
item `A -> •, $` added by the closure is processed after the accepting
item, and the reduce write overwrites the accept (the shift-protection
guard only protects `s…` values, and `"acc"` does not start with `s`). -/
theorem c1_accept_overwritten :
    parseGrammarWeb "S -> S A\nS -> a\nA -> ε" = .ok gA ∧
    generateClrItemsF 20 gA = some stsA ∧
    generateDfaF 20 stsA gA = some dfaA ∧
    (∃ st ∈ stsA, st.id = 1 ∧ ∃ item ∈ st.items, accItem gA.startSymbol item) ∧
    lookup2 (generateParsingTable stsA dfaA gA).actions 1 "$" = some "r3" ∧
    lookup2 (generateParsingTable stsA dfaA gA).actions 1 "$" ≠ some "acc" :=
  ⟨rfl, rfl, rfl, by decide, rfl, by decide⟩

/-- C1 (amended): (i) an `acc` entry appears only in the `$` column of a
state containing a complete augmented-start item with lookahead `$` — no
other cell is ever Accept; (ii) `action[state][$]` ends up `acc` for every
state (of a duplicate-free state list) containing such an item, provided
the state contains no complete item of another left-hand side with `$` in
its lookahead — such an item, processed later, overwrites the accept with
its reduce action (see `c1_accept_overwritten`). -/
theorem c1_accept_cell_characterization :
    (∀ (states : List State) (dfa : Dfa) (g : Grammar) (sid : Nat) (t : String),
      lookup2 (generateParsingTable states dfa g).actions sid t = some "acc" →
      t = "$" ∧ ∃ st ∈ states, st.id = sid ∧
        ∃ item ∈ st.items, accItem g.startSymbol item) ∧
    (∀ (states : List State) (dfa : Dfa) (g : Grammar) (st : State),
      (states.map State.id).Nodup → st ∈ states →
      (∃ item ∈ st.items, accItem g.startSymbol item) →
      (∀ item ∈ st.items, item.dotPosition = item.production.rhs.length →
        "$" ∈ item.lookahead → item.production.lhs = g.startSymbol) →
      lookup2 (generateParsingTable states dfa g).actions st.id "$" = some "acc") := by
  constructor
  · intro states dfa g sid t h
    simp only [generateParsingTable] at h
    rcases reduceAccPhase_lookup_acc h with h1 | ⟨ht, st, hmem, hid, hitem⟩
    · rcases shiftPhase_value_shape h1 with ⟨k, hk⟩
      exact absurd hk.symm (s_str_ne_acc _)
    · exact ⟨ht, st, hmem, hid, hitem⟩
  · intro states dfa g st hnodup hmem hacc hsafe
    simp only [generateParsingTable]
    refine reduceAccPhase_sets_acc hnodup hmem ?_ hacc hsafe
    exact shiftGotoPhase_present (initRows_present hmem)

/-- Witness for `c1_accept_cell_characterization` (part ii) on the
concrete pipeline of `gB`, whose state 1 holds exactly the accepting
item. -/
theorem c1_witness :
    ((stsB.map State.id).Nodup) ∧
    lookup2 (generateParsingTable stsB dfaB gB).actions 1 "$" = some "acc" :=
  ⟨by decide,
    c1_accept_cell_characterization.2 stsB dfaB gB
      ⟨1, [⟨⟨"S'", ["S"], 0⟩, 1, ["$"]⟩], [⟨⟨"S'", ["S"], 0⟩, 1, ["$"]⟩]⟩
      (by decide) (by decide) (by decide) (by decide)⟩

/-! ## C2: no grammar symbol is the end marker -/

theorem mem_setAdd_self (l : List String) (s : String) : s ∈ setAdd l s := by
  unfold setAdd
  split
  · assumption
  · simp

theorem classifySymbols_ok_shapes :
    ∀ {syms ts ns : List String} {res},
      classifySymbols syms ts ns = .ok res →
      ∀ s ∈ syms, s = "ε" ∨ isTerminalTok s = true ∨ isNonTerminalTok s = true ∨ s = "" := by
  intro syms
  induction syms with
  | nil => intro ts ns res _ s hs; exact absurd hs (List.not_mem_nil _)
  | cons sym rest ih =>
    intro ts ns res h s hs
    simp only [classifySymbols] at h
    rcases List.mem_cons.mp hs with rfl | hs'
    · split at h
      · exact .inl (by assumption)
      · split at h
        · exact .inr (.inl (by assumption))
        · split at h
          · exact .inr (.inr (.inl (by assumption)))
          · split at h
            · exact absurd h (by simp)
            · rename_i hne
              exact .inr (.inr (.inr (by simpa using hne)))
    · split at h
      · exact ih h s hs'
      · split at h
        · exact ih h s hs'
        · split at h
          · exact ih h s hs'
          · split at h
            · exact absurd h (by simp)
            · exact ih h s hs'

theorem matchProd_lhs_shape {line lhs rhsRaw : String}
    (h : matchProd line = some (lhs, rhsRaw)) :
    ∃ c m, lhs.data = c :: m ∧ isUpperAZ c = true := by
  unfold matchProd at h
  split at h
  · exact absurd h (by simp)
  · rename_i c rest heq
    split at h
    · rename_i hupper
      split at h
      · split at h
        · exact absurd h (by simp)
        · have hlhs : lhs = ⟨c :: rest.takeWhile isAlnumB⟩ :=
            (((Prod.mk.injEq _ _ _ _).mp ((Option.some.injEq _ _).mp h)).1).symm
          exact ⟨c, rest.takeWhile isAlnumB, by rw [hlhs], hupper⟩
      · exact absurd h (by simp)
    · exact absurd h (by simp)

/-- Productions whose symbols are never the end marker `$`. -/
def prodNoDollar (p : Production) : Prop :=
  p.lhs ≠ "$" ∧ ∀ s ∈ p.rhs, s ≠ "$"

theorem parseLoopWeb_noDollar :
    ∀ {lines : List String} {i : Nat} {ps : List Production} {ts ns : List String} {res},
      (∀ p ∈ ps, prodNoDollar p) →
      parseLoopWeb lines i ps ts ns = .ok res →
      ∀ p ∈ res.1, prodNoDollar p := by
  intro lines
  induction lines with
  | nil =>
    intro i ps ts ns res hps h
    have : ps = res.1 := by
      have := (Except.ok.injEq _ _).mp h
      rw [← this]
    exact this ▸ hps
  | cons line rest ih =>
    intro i ps ts ns res hps h
    simp only [parseLoopWeb] at h
    cases hm : matchProd line with
    | none => rw [hm] at h; exact absurd h (by simp)
    | some p =>
      obtain ⟨lhs, rhsRaw⟩ := p
      rw [hm] at h
      simp only at h
      cases hc : classifySymbols
          (if jsTrim rhsRaw = "ε" ∨ jsTrim rhsRaw = "" then ["ε"]
           else wordsOfStr (jsTrim rhsRaw)) ts (setAdd ns lhs) with
      | error e => rw [hc] at h; exact absurd h (by simp)
      | ok tsns =>
        rw [hc] at h
        simp only at h
        refine ih ?_ h
        intro p hp
        rcases List.mem_append.mp hp with hp1 | hp1
        · exact hps p hp1
        · have hpe := List.mem_singleton.mp hp1
          subst hpe
          constructor
          · -- the lhs starts with an uppercase letter, so it is not `$`
            show lhs ≠ "$"
            obtain ⟨c, m, hdata, hupper⟩ := matchProd_lhs_shape hm
            intro heq
            rw [heq] at hdata
            have h2 : ('$' :: [] : List Char) = c :: m := hdata
            have h3 : c = '$' := (List.cons.injEq _ _ _ _).mp h2.symm |>.1
            rw [h3] at hupper
            exact absurd hupper (by decide)
          · -- every pushed rhs symbol passed classification (or is `ε`)
            show ∀ s ∈ (if (if jsTrim rhsRaw = "ε" ∨ jsTrim rhsRaw = "" then ["ε"]
                else wordsOfStr (jsTrim rhsRaw)) = ["ε"] then []
              else if jsTrim rhsRaw = "ε" ∨ jsTrim rhsRaw = "" then ["ε"]
                else wordsOfStr (jsTrim rhsRaw)), s ≠ "$"
            by_cases hin : (jsTrim rhsRaw = "ε" ∨ jsTrim rhsRaw = "")
            · rw [if_pos hin]
              intro s hs
              split at hs
              · exact absurd hs (List.not_mem_nil _)
              · rw [List.mem_singleton.mp hs]
                decide
            · rw [if_neg hin] at hc ⊢
              intro s hs
              split at hs
              · exact absurd hs (List.not_mem_nil _)
              · have hshape := classifySymbols_ok_shapes hc s hs
                rcases hshape with h1 | h1 | h1 | h1
                · rw [h1]; decide
                · intro heq; rw [heq] at h1; exact absurd h1 (by decide)
                · intro heq; rw [heq] at h1; exact absurd h1 (by decide)
                · rw [h1]; decide

theorem aug_ne_dollar (x : String) : x ++ "'" ≠ "$" := by
  intro h
  have hd : x.data ++ ['\''] = ['$'] := by
    have := congrArg String.data h
    simpa [String.data_append] using this
  cases hx : x.data with
  | nil =>
    rw [hx] at hd
    exact absurd hd (by decide)
  | cons c m =>
    rw [hx] at hd
    have hlen := congrArg List.length hd
    simp [List.length_append] at hlen

theorem parseGrammarWeb_noDollar {input : String} {g : Grammar}
    (h : parseGrammarWeb input = .ok g) : ∀ p ∈ g.productions, prodNoDollar p := by
  unfold parseGrammarWeb at h
  replace h : (if (splitNl (jsTrim input)).length = 0 then
      (Except.error "Grammar cannot be empty" : Except String Grammar)
    else match parseLoopWeb (splitNl (jsTrim input)) 0 [] [] [] with
      | .error e => .error e
      | .ok (ps, ts, ns) => assembleGrammar ps ts ns) = .ok g := h
  split at h
  · exact absurd h (by simp)
  · cases hloop : parseLoopWeb (splitNl (jsTrim input)) 0 [] [] [] with
    | error e => rw [hloop] at h; exact absurd h (by simp)
    | ok res =>
      obtain ⟨ps, ts, ns⟩ := res
      rw [hloop] at h
      simp only [assembleGrammar] at h
      cases hp0 : ps.head? with
      | none => rw [hp0] at h; exact absurd h (by simp)
      | some p0 =>
        rw [hp0] at h
        simp only at h
        have hg : g = ⟨⟨p0.lhs ++ "'", [p0.lhs], 0⟩ :: ps, setAdd ts "$",
            setAdd ns (p0.lhs ++ "'"), p0.lhs ++ "'"⟩ := ((Except.ok.injEq _ _).mp h).symm
        subst hg
        have hps := @parseLoopWeb_noDollar _ _ [] _ _ _ (by simp) hloop
        intro p hp
        rcases List.mem_cons.mp hp with rfl | hp'
        · refine ⟨aug_ne_dollar _, ?_⟩
          intro s hs
          rw [List.mem_singleton.mp hs]
          exact (hps p0 (List.mem_of_mem_head? hp0)).1
        · exact hps p hp'

theorem parseGrammarWeb_dollar_mem {input : String} {g : Grammar}
    (h : parseGrammarWeb input = .ok g) : "$" ∈ g.terminals := by
  unfold parseGrammarWeb at h
  replace h : (if (splitNl (jsTrim input)).length = 0 then
      (Except.error "Grammar cannot be empty" : Except String Grammar)
    else match parseLoopWeb (splitNl (jsTrim input)) 0 [] [] [] with
      | .error e => .error e
      | .ok (ps, ts, ns) => assembleGrammar ps ts ns) = .ok g := h
  split at h
  · exact absurd h (by simp)
  · cases hloop : parseLoopWeb (splitNl (jsTrim input)) 0 [] [] [] with
    | error e => rw [hloop] at h; exact absurd h (by simp)
    | ok res =>
      obtain ⟨ps, ts, ns⟩ := res
      rw [hloop] at h
      simp only [assembleGrammar] at h
      cases hp0 : ps.head? with
      | none => rw [hp0] at h; exact absurd h (by simp)
      | some p0 =>
        rw [hp0] at h
        simp only at h
        have hg : g = ⟨⟨p0.lhs ++ "'", [p0.lhs], 0⟩ :: ps, setAdd ts "$",
            setAdd ns (p0.lhs ++ "'"), p0.lhs ++ "'"⟩ := ((Except.ok.injEq _ _).mp h).symm
        subst hg
        exact mem_setAdd_self _ _

/-! ## Edge labels come from symbols after a dot -/

theorem collectSymbols_mem {items : List Item} {x : String}
    (h : x ∈ collectSymbols items) :
    ∃ it ∈ items, it.dotPosition < it.production.rhs.length ∧
      x = it.production.rhs.getD it.dotPosition "" := by
  unfold collectSymbols at h
  suffices haux : ∀ (l : List Item) (acc : List String),
      x ∈ l.foldl (fun syms item =>
        if item.dotPosition < item.production.rhs.length then
          setAdd syms (item.production.rhs.getD item.dotPosition "")
        else syms) acc →
      x ∈ acc ∨ ∃ it ∈ l, it.dotPosition < it.production.rhs.length ∧
        x = it.production.rhs.getD it.dotPosition "" by
    rcases haux items [] h with h1 | h1
    · exact absurd h1 (List.not_mem_nil _)
    · exact h1
  intro l
  induction l with
  | nil => intro acc h1; exact .inl h1
  | cons it rest ih =>
    intro acc h1
    simp only [List.foldl_cons] at h1
    rcases ih _ h1 with h2 | ⟨it', hit', hrest⟩
    · split at h2
      · rcases mem_setAdd h2 with h3 | h3
        · exact .inl h3
        · exact .inr ⟨it, List.mem_cons_self _ _, by assumption, h3⟩
      · exact .inl h2
    · exact .inr ⟨it', List.mem_cons_of_mem _ hit', hrest⟩

theorem dfaEdgesForState_mem {fuel : Nat} {g : Grammar} {states : List State}
    {st : State} {es : List Edge} (h : dfaEdgesForState fuel g states st = some es) :
    ∀ e ∈ es, e.source = st.id ∧ e.label ∈ collectSymbols st.items := by
  unfold dfaEdgesForState at h
  refine foldlM_option_inv
    (fun acc => ∀ e ∈ acc, e.source = st.id ∧ e.label ∈ collectSymbols st.items)
    _ _ _ (by intro e he; exact absurd he (List.not_mem_nil _)) ?_ es h
  intro acc symbol acc' hsym hacc hstep
  cases hgoto : gotoF fuel g st.items symbol with
  | none => rw [hgoto] at hstep; exact absurd hstep (by simp)
  | some gotoItems =>
    rw [hgoto] at hstep
    simp only [optBind_some] at hstep
    split at hstep
    · split at hstep
      · rename_i tid htid
        have : acc' = acc ++ [⟨st.id, tid, symbol⟩] := by simpa using hstep.symm
        subst this
        intro e he
        rcases List.mem_append.mp he with h1 | h1
        · exact hacc e h1
        · have := List.mem_singleton.mp h1
          subst this
          exact ⟨rfl, hsym⟩
      · have : acc' = acc := by simpa using hstep.symm
        subst this
        exact hacc
    · have : acc' = acc := by simpa using hstep.symm
      subst this
      exact hacc

theorem generateDfaF_edges {fuel : Nat} {states : List State} {g : Grammar} {dfa : Dfa}
    (h : generateDfaF fuel states g = some dfa) :
    ∀ e ∈ dfa.edges, ∃ st ∈ states, e.source = st.id ∧ e.label ∈ collectSymbols st.items := by
  unfold generateDfaF at h
  cases hfold : states.foldlM (fun acc st => do
      let es ← dfaEdgesForState fuel g states st
      pure (acc ++ es)) ([] : List Edge) with
  | none => rw [hfold] at h; exact absurd h (by simp)
  | some edges =>
    rw [hfold] at h
    simp only [optBind_some] at h
    have hedges : dfa.edges = edges := by
      have := ((Option.some.injEq _ _).mp h).symm
      rw [this]
    rw [hedges]
    refine foldlM_option_inv
      (fun acc => ∀ e ∈ acc, ∃ st ∈ states, e.source = st.id ∧
        e.label ∈ collectSymbols st.items)
      _ _ _ (by intro e he; exact absurd he (List.not_mem_nil _)) ?_ edges hfold
    intro acc st acc' hst hacc hstep
    cases hes : dfaEdgesForState fuel g states st with
    | none => rw [hes] at hstep; exact absurd hstep (by simp)
    | some es =>
      rw [hes] at hstep
      simp only [optBind_some] at hstep
      have : acc' = acc ++ es := by simpa using hstep.symm
      subst this
      intro e he
      rcases List.mem_append.mp he with h1 | h1
      · exact hacc e h1
      · obtain ⟨hsrc, hlab⟩ := dfaEdgesForState_mem hes e h1
        exact ⟨st, hst, hsrc, hlab⟩

/-- In a pipeline run from a parsed grammar, no DFA edge is labelled by
the end marker. -/
theorem pipeline_edge_label_ne_dollar {input : String} {g : Grammar} {fuel : Nat}
    {states : List State} {dfa : Dfa}
    (hparse : parseGrammarWeb input = .ok g)
    (hstates : generateClrItemsF fuel g = some states)
    (hdfa : generateDfaF fuel states g = some dfa) :
    ∀ e ∈ dfa.edges, e.label ≠ "$" := by
  intro e he
  obtain ⟨st, hst, _, hlab⟩ := generateDfaF_edges hdfa e he
  obtain ⟨it, hit, hdot, heq⟩ := collectSymbols_mem hlab
  obtain ⟨hprod, _⟩ := generateClrItems_itemOK (parseGrammarWeb_dollar_mem hparse)
    hstates st hst it hit
  have hmem : it.production.rhs.getD it.dotPosition "" ∈ it.production.rhs := by
    rw [List.getD_eq_getElem?_getD, List.getElem?_eq_getElem hdot]
    exact List.getElem_mem _
  rw [heq]
  exact (parseGrammarWeb_noDollar hparse _ hprod).2 _ hmem

/-- C2: in the pipeline of a parsed grammar, a cell that received a Shift
from an automaton edge keeps that Shift in the final table even when a
complete item of the state calls for a Reduce on the same terminal: the
reduce loop's guard skips cells holding an `s…` value, and the accept
write (the only unconditional write) only touches the `$` column, where
no shift can live because `$` labels no edge. -/
theorem c2_shift_never_overwritten {input : String} {g : Grammar} {fuel : Nat}
    {states : List State} {dfa : Dfa} {sid : Nat} {t v : String}
    (hparse : parseGrammarWeb input = .ok g)
    (hstates : generateClrItemsF fuel g = some states)
    (hdfa : generateDfaF fuel states g = some dfa)
    (hshift : lookup2 (shiftGotoPhase dfa.edges g (initRows states, initRows states)).1
      sid t = some v)
    (hconflict : ∃ st ∈ states, st.id = sid ∧ ∃ item ∈ st.items,
      item.dotPosition = item.production.rhs.length ∧ t ∈ item.lookahead) :
    lookup2 (generateParsingTable states dfa g).actions sid t = some v := by
  obtain ⟨k, hk⟩ := shiftPhase_value_shape hshift
  have ht : t ≠ "$" := by
    rcases shiftPhase_lookup hshift with h1 | ⟨e, he, _, hlab, _⟩
    · rw [lookup2_initRows] at h1
      exact absurd h1 (by simp)
    · rw [← hlab]
      exact pipeline_edge_label_ne_dollar hparse hstates hdfa e he
  simp only [generateParsingTable]
  exact reduceAccPhase_preserves ht hshift (hk ▸ s_str_startsWith _)
    (hk ▸ s_str_ne_empty _)

/-- Witness for `c2_shift_never_overwritten`: the pipeline of
`"S -> A a\nA -> a\nA -> ε"` has a genuine shift/reduce conflict at
(state 0, `a`) — edge `0 —a→ 3` gives the shift `s3` while the complete
item `A -> •, a` calls for the reduce `r3` — and the final cell is
`s3`. -/
theorem c2_witness :
    lookup2 (shiftGotoPhase dfaB.edges gB (initRows stsB, initRows stsB)).1 0 "a" =
      some "s3" ∧
    lookup2 (generateParsingTable stsB dfaB gB).actions 0 "a" = some "s3" :=
  ⟨rfl,
    @c2_shift_never_overwritten "S -> A a\nA -> a\nA -> ε" gB 20 stsB dfaB 0 "a" "s3"
      rfl rfl rfl rfl
      ⟨⟨0, [⟨⟨"S'", ["S"], 0⟩, 0, ["$"]⟩, ⟨⟨"S", ["A", "a"], 1⟩, 0, ["$"]⟩,
           ⟨⟨"A", ["a"], 2⟩, 0, ["a"]⟩, ⟨⟨"A", [], 3⟩, 0, ["a"]⟩],
          [⟨⟨"S'", ["S"], 0⟩, 0, ["$"]⟩]⟩,
        by decide, rfl, ⟨⟨"A", [], 3⟩, 0, ["a"]⟩, by decide, rfl, by decide⟩⟩

/-! ## C5 -/

theorem lookup_mem {α β : Type} [BEq α] [LawfulBEq α] {m : List (α × β)} {k : α} {v : β}
    (h : m.lookup k = some v) : (k, v) ∈ m := by
  induction m with
  | nil => exact absurd h (by simp)
  | cons kv rest ih =>
    obtain ⟨k0, v0⟩ := kv
    rw [List.lookup_cons] at h
    cases hbeq : k == k0 with
    | true =>
      rw [hbeq] at h
      have hk : k = k0 := eq_of_beq hbeq
      have hv : v0 = v := by simpa using h
      rw [← hk, hv]
      exact List.mem_cons_self _ _
    | false =>
      rw [hbeq] at h
      exact List.mem_cons_of_mem _ (ih h)

/-- Every `r…` action value of the table decodes to a production id of
the grammar (true of every table `generateParsingTable` builds from the
same grammar). -/
def tableReduceOK (g : Grammar) (table : ParsingTable) : Bool :=
  table.actions.all (fun row => row.2.all (fun cell =>
    !(jsStartsWith cell.2 "r") ||
      (match jsParseIntNat (jsSubstring1 cell.2) with
       | none => false
       | some id => decide (id < g.productions.length))))

theorem tableReduceOK_spec {g : Grammar} {table : ParsingTable}
    (hOK : tableReduceOK g table = true) {n : Nat} {t act : String}
    (hlookup : lookup2 table.actions n t = some act)
    (hr : jsStartsWith act "r" = true) :
    ∃ id, jsParseIntNat (jsSubstring1 act) = some id ∧ id < g.productions.length := by
  unfold lookup2 at hlookup
  cases hrow : table.actions.lookup n with
  | none => rw [hrow] at hlookup; exact absurd hlookup (by simp)
  | some row =>
    rw [hrow] at hlookup
    have hlookup2 : row.lookup t = some act := hlookup
    have hrowmem := lookup_mem hrow
    have hcellmem := lookup_mem hlookup2
    unfold tableReduceOK at hOK
    rw [List.all_eq_true] at hOK
    have h1 := hOK _ hrowmem
    rw [List.all_eq_true] at h1
    have h2 := h1 _ hcellmem
    simp only [Bool.or_eq_true, Bool.not_eq_true'] at h2
    rcases h2 with h2 | h2
    · rw [hr] at h2; exact absurd h2 (by decide)
    · cases hpid : jsParseIntNat (jsSubstring1 act) with
      | none => simp [hpid] at h2
      | some id =>
        simp only [hpid] at h2
        exact ⟨id, rfl, by simpa using h2⟩

/-- C5 (amended): for every grammar and table whose reduce entries name
productions of the grammar (in particular every table generated from that
grammar), `parseString`'s loop (i) never raises a fault — every completed
run returns a result object — and (ii) each of the three failure cases
(missing action entry, reduce popping more than the stack holds, missing
goto entry) returns `{accepted: false}` with a final trace entry
describing the failing step, naming the state and token for a missing
action.  Without the reduce-entry condition the function can throw (see
`c5_fault_on_foreign_reduce`). -/
theorem c5_recognizer_failures_are_results (g : Grammar) (table : ParsingTable)
    (hOK : tableReduceOK g table = true) :
    (∀ (tokens : List String) (fuel : Nat) (stack : List JEntry) (pointer : Nat)
       (steps : List String) (r : Except String ParseResult),
      parseLoop g table tokens fuel stack pointer steps = some r →
      ∃ pr, r = .ok pr) ∧
    (∀ (tokens : List String) (fuel : Nat) (stack : List JEntry) (pointer : Nat)
       (steps : List String) (n : Nat),
      topStateVal stack = some (some n) →
      lookup2 table.actions n (tokens.getD pointer "undefined") = none →
      parseLoop g table tokens (fuel + 1) stack pointer steps =
        some (.ok ⟨false, steps ++
          ["Error: No action found for state " ++ Nat.repr n ++
            " and token " ++ tokens.getD pointer "undefined"]⟩)) ∧
    (∀ (tokens : List String) (fuel : Nat) (stack : List JEntry) (pointer : Nat)
       (steps : List String) (n : Nat) (act : String) (pid : Nat) (p : Production),
      topStateVal stack = some (some n) →
      lookup2 table.actions n (tokens.getD pointer "undefined") = some act →
      act ≠ "" → act ≠ "acc" → jsStartsWith act "s" = false →
      jsStartsWith act "r" = true →
      jsParseIntNat (jsSubstring1 act) = some pid →
      g.productions.get? pid = some p →
      p.rhs.length * 2 > stack.length →
      parseLoop g table tokens (fuel + 1) stack pointer steps =
        some (.ok ⟨false, steps ++ ["Error: Stack underflow during reduction"]⟩)) ∧
    (∀ (tokens : List String) (fuel : Nat) (stack : List JEntry) (pointer : Nat)
       (steps : List String) (n : Nat) (act : String) (pid : Nat) (p : Production),
      topStateVal stack = some (some n) →
      lookup2 table.actions n (tokens.getD pointer "undefined") = some act →
      act ≠ "" → act ≠ "acc" → jsStartsWith act "s" = false →
      jsStartsWith act "r" = true →
      jsParseIntNat (jsSubstring1 act) = some pid →
      g.productions.get? pid = some p →
      ¬(p.rhs.length * 2 > stack.length) →
      (match topStateVal (if p.rhs.length * 2 = 0 then []
          else stack.drop (p.rhs.length * 2)) with
        | some (some m) => lookup2 table.gotos m p.lhs
        | _ => none) = none →
      parseLoop g table tokens (fuel + 1) stack pointer steps =
        some (.ok ⟨false, steps ++
          ["Error: No goto state found for " ++ p.lhs ++ " in state " ++
            stateStr (topStateVal (if p.rhs.length * 2 = 0 then []
              else stack.drop (p.rhs.length * 2)))]⟩)) := by
  refine ⟨?_, ?_, ?_, ?_⟩
  · -- (i) no fault
    intro tokens fuel
    induction fuel with
    | zero =>
      intro stack pointer steps r h
      exact Option.noConfusion h
    | succ fuel ih =>
      intro stack pointer steps r h
      simp only [parseLoop] at h
      split at h
      · exact ⟨_, ((Option.some.injEq _ _).mp h).symm⟩
      · rename_i act hact
        split at h
        · exact ⟨_, ((Option.some.injEq _ _).mp h).symm⟩
        · split at h
          · exact ⟨_, ((Option.some.injEq _ _).mp h).symm⟩
          · split at h
            · exact ih _ _ _ _ h
            · split at h
              · -- reduce branch
                rename_i hrs hr
                have hsome : ∃ nn, topStateVal stack = some (some nn) ∧
                    lookup2 table.actions nn (tokens.getD pointer "undefined") = some act := by
                  cases htop : topStateVal stack with
                  | none => rw [htop] at hact; exact absurd hact (by simp)
                  | some v =>
                    cases v with
                    | none => rw [htop] at hact; exact absurd hact (by simp)
                    | some nn =>
                      rw [htop] at hact
                      exact ⟨nn, rfl, hact⟩
                obtain ⟨nn, _, hlook⟩ := hsome
                obtain ⟨pid, hpid, hlt⟩ := tableReduceOK_spec hOK hlook hr
                simp only [hpid, List.get?_eq_get hlt] at h
                split at h
                · exact ⟨_, ((Option.some.injEq _ _).mp h).symm⟩
                · split at h
                  · exact ⟨_, ((Option.some.injEq _ _).mp h).symm⟩
                  · split at h
                    · exact ⟨_, ((Option.some.injEq _ _).mp h).symm⟩
                    · exact ih _ _ _ _ h
              · exact ih _ _ _ _ h
  · -- (ii) missing action
    intro tokens fuel stack pointer steps n htop hlookup
    simp only [parseLoop, htop, hlookup]
    rfl
  · -- (iii) stack underflow
    intro tokens fuel stack pointer steps n act pid p htop hlookup hne hnacc hns hr hpid
      hp hover
    simp only [parseLoop, htop, hlookup]
    rw [if_neg hne, if_neg hnacc]
    simp only [hns, Bool.false_eq_true, if_false, hr, if_true, hpid, hp]
    rw [if_pos hover]
  · -- (iv) missing goto
    intro tokens fuel stack pointer steps n act pid p htop hlookup hne hnacc hns hr hpid
      hp hnover hgoto
    simp only [parseLoop, htop, hlookup]
    rw [if_neg hne, if_neg hnacc]
    simp only [hns, Bool.false_eq_true, if_false, hr, if_true, hpid, hp]
    rw [if_neg hnover]
    simp only [hgoto]

/-- C5 counterexample: with an arbitrary `ParsingTable` (as the claim
quantifies), `parseString` CAN raise a fault: a reduce entry `r7` on a
4-production grammar makes `grammar.productions[7]` the value `undefined`,
and reading `.rhs` on it throws a `TypeError`. -/
theorem c5_fault_on_foreign_reduce :
    parseString gB ⟨[(0, [("a", "r7")])], [], ["a", "$"], ["S"], [0]⟩ "a" 10 =
      some (.error "TypeError: Cannot read properties of undefined") := rfl

/-- Witness for `c5_recognizer_failures_are_results` on the concrete
pipeline table of `gB`. -/
theorem c5_witness :
    tableReduceOK gB (generateParsingTable stsB dfaB gB) = true ∧
    parseLoop gB (generateParsingTable stsB dfaB gB) ["b", "$"] 5
      [.st (some 0)] 0 [] =
      some (.ok ⟨false, ["Error: No action found for state 0 and token b"]⟩) :=
  ⟨by decide,
    (c5_recognizer_failures_are_results gB (generateParsingTable stsB dfaB gB)
      (by decide)).2.1 ["b", "$"] 4 [.st (some 0)] 0 [] 0 rfl rfl⟩

end CLR
